import Mathlib

/-! Verification development for the quad-search program (src/main.rs).

The program searches for "hands" (subsets of a deck of at most 128 cards,
each card an integer viewed as a vector over the two-element field via its
bit pattern) that either maximise the number of "quads" (4-element subsets
splitting into two unordered pairs with equal XOR) or achieve an exact
target quad count while minimising the largest card used.

Representation choices of the shallow embedding:
the `u128` hand bitmask is a `Nat` (bit `i` set means card `i` is in the
hand); the `[u8; 128]` difference table is a function `Nat → Nat` (it is
proved below that every table value reachable for the supported problem
sizes stays far below 256, so unsigned-8-bit wraparound is unreachable);
`u64` and `usize` counters are `Nat` (boundedness is likewise proved).
The recursive search functions take an explicit fuel argument so that they
are structurally recursive and kernel-computable; every run of the source
program corresponds to a call with ample fuel (the recursion of
`search_inner` advances `next_index` at every level and stops once
`next_index + cards_to_add` exceeds `max_index`, so its depth is at most
`max_index + 1`; the driver loop of `search_multi` halves a positive deck
size at every iteration, so its depth is at most `cards_in_deck + 1`).
The search functions additionally return a list of inert trace events
recording every recursive call made, every Extend-state branching
decision, and every Finalize-state candidate evaluation; the events are
pure instrumentation and do not influence any computed value. -/

/-! ## Brute-force quad counting (the specification side)

These definitions follow the specification text: a quad is a quadruple
of four distinct elements that splits into two unordered pairs with
equal XOR. -/

instance : Std.Commutative (α := ℕ) (· ^^^ ·) := ⟨Nat.xor_comm⟩

instance : Std.Associative (α := ℕ) (· ^^^ ·) := ⟨Nat.xor_assoc⟩

/-- XOR of all elements of a finite set of naturals. -/
def xorSum (s : Finset ℕ) : ℕ := s.fold (· ^^^ ·) 0 id

/-- A set of cards contains four distinct elements forming two unordered
pairs with equal XOR.  Applied below to 4-element sets. -/
def isQuadSet (q : Finset ℕ) : Prop :=
  ∃ a ∈ q, ∃ b ∈ q, ∃ c ∈ q, ∃ d ∈ q,
    a ≠ b ∧ a ≠ c ∧ a ≠ d ∧ b ≠ c ∧ b ≠ d ∧ c ≠ d ∧ a ^^^ b = c ^^^ d

instance : DecidablePred isQuadSet := fun q => by
  unfold isQuadSet; infer_instance

/-- Brute-force quad count of a set of cards: the number of 4-element
subsets that split into two unordered pairs with equal XOR. -/
def setQuads (s : Finset ℕ) : ℕ := ((s.powersetCard 4).filter isQuadSet).card

/-- The set of cards of a hand bitmask (the program supports cards
`0..128` only, matching the `u128` hand representation). -/
def handSet (hand : ℕ) : Finset ℕ := (Finset.range 128).filter (hand.testBit ·)

/-- Specification of one difference-table entry: the number of unordered
pairs of distinct cards of `s` whose XOR is `d`. -/
def pairCnt (s : Finset ℕ) (d : ℕ) : ℕ :=
  ((s.powersetCard 2).filter (fun p => xorSum p = d)).card

/-! ## The engine (translated from src/main.rs)  -/

/-- Floor base-2 logarithm with `ilog2 0 = 0`, mirroring
`checked_ilog2().unwrap_or(0)` in `search_inner` and
`search_inner_multi`.  Defined with 128 halving steps, enough for every
`u128` value. -/
def ilog2Aux : ℕ → ℕ → ℕ
  | 0, _ => 0
  | fuel + 1, n => if n < 2 then 0 else ilog2Aux fuel (n / 2) + 1

/-- Floor base-2 logarithm used by the dimension-ceiling computation. -/
def ilog2 (n : ℕ) : ℕ := ilog2Aux 128 n

/-- State of the Extend-branch insertion loop of `search_inner` (lines
62-81) and `search_inner_multi` (lines 189-208): the updated difference
table `differences2`, the updated raw quad count `quads2`, and the
`good` flag (set to `false` by the early `break` when an entry would
exceed `max_diff_count`). -/
structure ExtState where
  diffs : ℕ → ℕ
  quads : ℕ
  good : Bool

/-- The insertion loop body of the Extend branch: for each index `i`
of the iteration list, if card `i` is in the hand, accumulate
`differences2[i ^ next_index]` into the raw quad count, increment that
entry, and break with `good = false` if the entry now exceeds
`max_diff_count`.  The source reads the just-incremented entry for the
bound test; that value is written here as `diffs (i ^^^ nextIndex) + 1`,
the same number. -/
def extLoop (hand nextIndex maxDiff : ℕ) : List ℕ → (ℕ → ℕ) → ℕ → ExtState
  | [], diffs, quads => ⟨diffs, quads, true⟩
  | i :: is, diffs, quads =>
    if hand.testBit i then
      if maxDiff < diffs (i ^^^ nextIndex) + 1 then
        ⟨Function.update diffs (i ^^^ nextIndex) (diffs (i ^^^ nextIndex) + 1),
          quads + diffs (i ^^^ nextIndex), false⟩
      else
        extLoop hand nextIndex maxDiff is
          (Function.update diffs (i ^^^ nextIndex) (diffs (i ^^^ nextIndex) + 1))
          (quads + diffs (i ^^^ nextIndex))
    else extLoop hand nextIndex maxDiff is diffs quads

/-- The Extend-branch insertion computation `for i in 0..next_index`. -/
def extendCalc (hand nextIndex maxDiff : ℕ) (diffs : ℕ → ℕ) (quads : ℕ) : ExtState :=
  extLoop hand nextIndex maxDiff (List.range nextIndex) diffs quads

/-- The Finalize-state raw quad count for candidate last card `j`:
`quads` plus `differences[i ^ j]` for every card `i < next_index` of the
hand (lines 122-127 and 242-247). -/
def finQuads (hand : ℕ) (diffs : ℕ → ℕ) (nextIndex j quads : ℕ) : ℕ :=
  (List.range nextIndex).foldl
    (fun q i => if hand.testBit i then q + diffs (i ^^^ j) else q) quads

/-- Trace events recorded by the instrumented search functions.
`call` records every recursive call (skip-branch calls are tagged, and
the difference table is recorded as its 128 entries); `ext` records, for
every Extend-state frame, the candidate index, `min_diff_count`, whether
the include branch was entered, whether it signalled continuation, and
whether the skip branch was entered; `fin` records every Finalize-state
candidate evaluation together with its raw accumulated quad count. -/
inductive Ev where
  | call (isSkip : Bool) (hand : ℕ) (tbl : List ℕ) (nextIndex cardsToAdd quads : ℕ)
  | ext (nextIndex minDiff : ℕ) (includeCalled includeCont skipCalled : Bool)
  | fin (hand j quads2 : ℕ)
deriving DecidableEq

/-- The 128 entries of a difference table, as recorded in trace events. -/
def tblOf (diffs : ℕ → ℕ) : List ℕ := (List.range 128).map diffs

/-- Result of `search_inner`: the best-result accumulator
`(best_score, best_hand)`, the continuation flag (`cont = false` models
the `None` early-exit return), and the trace events. -/
structure SIRes where
  best : ℕ × ℕ
  cont : Bool
  evs : List Ev

/-- The Finalize-state loop of `search_inner` (lines 119-145): for each
remaining candidate `j`, compute the raw count, divide by 3, and either
(target mode) update the accumulator when the true count hits the target
and `j` improves the best max-card, then return `None`, or (maximise
mode) update the accumulator when the true count exceeds the best. -/
def finLoop (hand : ℕ) (diffs : ℕ → ℕ) (nextIndex quads : ℕ) (targetQuads : Option ℕ) :
    List ℕ → ℕ × ℕ → SIRes
  | [], best => ⟨best, true, []⟩
  | j :: js, best =>
    let quads2 := finQuads hand diffs nextIndex j quads
    let realQuads := quads2 / 3
    match targetQuads with
    | some target =>
      let best2 := if realQuads = target ∧ j < best.1 then (j, hand ||| 1 <<< j) else best
      ⟨best2, false, [Ev.fin hand j quads2]⟩
    | none =>
      let best2 := if best.1 < realQuads then (quads2 / 3, hand ||| 1 <<< j) else best
      let r := finLoop hand diffs nextIndex quads none js best2
      ⟨r.best, r.cont, Ev.fin hand j quads2 :: r.evs⟩

/-- The recursive exact-target / maximise search `search_inner`
(lines 32-147), with explicit fuel and trace instrumentation.  The
accumulator is `(best_score, best_hand)` and `cont = false` models the
`Option<()>` stop signal `None`. -/
def searchInner (fuel : ℕ) (hand : ℕ) (diffs : ℕ → ℕ)
    (minDiff maxDiff nextIndex maxIndex cardsInHand cardsToAdd quads : ℕ)
    (targetQuads : Option ℕ) (best : ℕ × ℕ) : SIRes :=
  match fuel with
  | 0 => ⟨best, true, []⟩
  | fuel + 1 =>
    if maxIndex < nextIndex + cardsToAdd ∨ cardsToAdd = 0 then ⟨best, true, []⟩
    else
      let lastCardInHand := ilog2 hand
      let maxDimensionUsed := ilog2 lastCardInHand
      let maxUsefulCard := (1 <<< maxDimensionUsed) * 2
      if maxUsefulCard < nextIndex then ⟨best, true, []⟩
      else if 1 < cardsToAdd then
        let st := extendCalc hand nextIndex maxDiff diffs quads
        let includeOk := st.good = true ∧ ∀ target ∈ targetQuads, st.quads ≤ target * 3
        if includeOk then
          let r1 := searchInner fuel (hand ||| 1 <<< nextIndex) st.diffs minDiff maxDiff
            (nextIndex + 1) maxIndex cardsInHand (cardsToAdd - 1) st.quads targetQuads best
          let evs1 := Ev.call false (hand ||| 1 <<< nextIndex) (tblOf st.diffs)
            (nextIndex + 1) (cardsToAdd - 1) st.quads :: r1.evs
          if r1.cont = false then
            ⟨r1.best, false, Ev.ext nextIndex minDiff true false false :: evs1⟩
          else if minDiff * 2 ≤ nextIndex then
            let r2 := searchInner fuel hand diffs minDiff maxDiff
              (nextIndex + 1) maxIndex cardsInHand cardsToAdd quads targetQuads r1.best
            ⟨r2.best, r2.cont, Ev.ext nextIndex minDiff true true true ::
              (evs1 ++ Ev.call true hand (tblOf diffs) (nextIndex + 1) cardsToAdd quads :: r2.evs)⟩
          else ⟨r1.best, true, Ev.ext nextIndex minDiff true true false :: evs1⟩
        else
          if minDiff * 2 ≤ nextIndex then
            let r2 := searchInner fuel hand diffs minDiff maxDiff
              (nextIndex + 1) maxIndex cardsInHand cardsToAdd quads targetQuads best
            ⟨r2.best, r2.cont, Ev.ext nextIndex minDiff false true true ::
              Ev.call true hand (tblOf diffs) (nextIndex + 1) cardsToAdd quads :: r2.evs⟩
          else ⟨best, true, [Ev.ext nextIndex minDiff false true false]⟩
      else
        finLoop hand diffs nextIndex quads targetQuads
          (List.range' nextIndex (min maxIndex (maxUsefulCard + 1) - nextIndex)) best

/-- Result of `search_inner_multi`: the `best_scores` table and the
trace events. -/
structure SMRes where
  scores : List ℕ
  evs : List Ev

/-- The Finalize-state loop of `search_inner_multi` (lines 239-258):
grow `best_scores` on demand with the deck-size sentinel, then record
the minimum max-card for the observed true quad count. -/
def finLoopMulti (hand : ℕ) (diffs : ℕ → ℕ) (nextIndex quads maxIndex : ℕ) :
    List ℕ → List ℕ → SMRes
  | [], bs => ⟨bs, []⟩
  | j :: js, bs =>
    let quads2 := finQuads hand diffs nextIndex j quads
    let realQuads := quads2 / 3
    let bs1 := if bs.length ≤ realQuads then
        bs ++ List.replicate (realQuads + 1 - bs.length) maxIndex
      else bs
    let bs2 := if j < bs1.getD realQuads 0 then bs1.set realQuads j else bs1
    let r := finLoopMulti hand diffs nextIndex quads maxIndex js bs2
    ⟨r.scores, Ev.fin hand j quads2 :: r.evs⟩

/-- The recursive multi-target sweep `search_inner_multi`
(lines 161-259), with explicit fuel and trace instrumentation. -/
def searchInnerMulti (fuel : ℕ) (hand : ℕ) (diffs : ℕ → ℕ)
    (minDiff maxDiff nextIndex maxIndex cardsInHand cardsToAdd quads : ℕ)
    (bestScores : List ℕ) : SMRes :=
  match fuel with
  | 0 => ⟨bestScores, []⟩
  | fuel + 1 =>
    if maxIndex < nextIndex + cardsToAdd ∨ cardsToAdd = 0 then ⟨bestScores, []⟩
    else
      let lastCardInHand := ilog2 hand
      let maxDimensionUsed := ilog2 lastCardInHand
      let maxUsefulCard := (1 <<< maxDimensionUsed) * 2
      if maxUsefulCard < nextIndex then ⟨bestScores, []⟩
      else if 1 < cardsToAdd then
        let st := extendCalc hand nextIndex maxDiff diffs quads
        let r1 := if st.good then
            let r := searchInnerMulti fuel (hand ||| 1 <<< nextIndex) st.diffs minDiff maxDiff
              (nextIndex + 1) maxIndex cardsInHand (cardsToAdd - 1) st.quads bestScores
            (⟨r.scores, Ev.call false (hand ||| 1 <<< nextIndex) (tblOf st.diffs)
              (nextIndex + 1) (cardsToAdd - 1) st.quads :: r.evs⟩ : SMRes)
          else ⟨bestScores, []⟩
        if minDiff * 2 ≤ nextIndex then
          let r2 := searchInnerMulti fuel hand diffs minDiff maxDiff
            (nextIndex + 1) maxIndex cardsInHand cardsToAdd quads r1.scores
          ⟨r2.scores, Ev.ext nextIndex minDiff st.good true true ::
            (r1.evs ++ Ev.call true hand (tblOf diffs) (nextIndex + 1) cardsToAdd quads :: r2.evs)⟩
        else ⟨r1.scores, Ev.ext nextIndex minDiff st.good true false :: r1.evs⟩
      else
        finLoopMulti hand diffs nextIndex quads maxIndex
          (List.range' nextIndex (min maxIndex (maxUsefulCard + 1) - nextIndex)) bestScores

/-- The single-search driver `search` (lines 269-353): initialise the
accumulator with the placeholder hand `(1 << cards_in_hand) - 1` and the
score sentinel (`0` when maximising, `cards_in_deck` in target mode),
run up to three `search_inner` passes with windows chosen from the
target, and return `(best_hand, best_score)`. -/
def search (cardsInDeck cardsInHand : ℕ) (targetQuads : Option ℕ) : ℕ × ℕ :=
  let best0 : ℕ × ℕ :=
    ((match targetQuads with | none => 0 | some _ => cardsInDeck), (1 <<< cardsInHand) - 1)
  let best1 := match targetQuads with
    | some target =>
      if target = 0 then
        (searchInner (cardsInDeck + 1) 0 (fun _ => 0) 1 1 0 cardsInDeck cardsInHand
          cardsInHand 0 targetQuads best0).best
      else best0
    | none => best0
  let best2 := match targetQuads with
    | some target =>
      if target ≤ cardsInHand * (cardsInHand + 1) / 12 then
        (searchInner (cardsInDeck + 1) 0 (fun _ => 0) 2 2 0 cardsInDeck cardsInHand
          cardsInHand 0 targetQuads best1).best
      else best1
    | none => best1
  let best3 := (searchInner (cardsInDeck + 1) 0 (fun _ => 0) 3 (cardsInDeck / 2) 0 cardsInDeck
    cardsInHand cardsInHand 0 targetQuads best2).best
  (best3.2, best3.1)

/-- The multi-target sweep driver `search_multi` (lines 362-406): while
the deck is nonempty and fits the hand, run `search_inner_multi` three
times into the shared `best_scores` table with the windows `(1,1)`,
`(2,2)` and `(3, cards_in_deck / 2)`, then halve the deck size. -/
def searchMultiGo (fuel cardsInDeck cardsInHand : ℕ) (acc : List ℕ) : List ℕ :=
  match fuel with
  | 0 => acc
  | fuel + 1 =>
    if 0 < cardsInDeck ∧ cardsInHand ≤ cardsInDeck then
      let a1 := (searchInnerMulti (cardsInDeck + 1) 0 (fun _ => 0) 1 1 0 cardsInDeck 0
        cardsInHand 0 acc).scores
      let a2 := (searchInnerMulti (cardsInDeck + 1) 0 (fun _ => 0) 2 2 0 cardsInDeck 0
        cardsInHand 0 a1).scores
      let a3 := (searchInnerMulti (cardsInDeck + 1) 0 (fun _ => 0) 3 (cardsInDeck / 2) 0
        cardsInDeck 0 cardsInHand 0 a2).scores
      searchMultiGo fuel (cardsInDeck / 2) cardsInHand a3
    else acc

/-- The multi-target sweep `search_multi` starting from the empty result
table. -/
def searchMulti (cardsInDeck cardsInHand : ℕ) : List ℕ :=
  searchMultiGo (cardsInDeck + 1) cardsInDeck cardsInHand []

/-- The `(min_diff_count, max_diff_count)` windows of the successive
`search_inner_multi` calls made by `search_multi`, in order. -/
def searchMultiCallsGo (fuel cardsInDeck cardsInHand : ℕ) : List (ℕ × ℕ) :=
  match fuel with
  | 0 => []
  | fuel + 1 =>
    if 0 < cardsInDeck ∧ cardsInHand ≤ cardsInDeck then
      (1, 1) :: (2, 2) :: (3, cardsInDeck / 2) ::
        searchMultiCallsGo fuel (cardsInDeck / 2) cardsInHand
    else []

/-- The window trace of `search_multi`. -/
def searchMultiCalls (cardsInDeck cardsInHand : ℕ) : List (ℕ × ℕ) :=
  searchMultiCallsGo (cardsInDeck + 1) cardsInDeck cardsInHand

/-- Modelled from the claim wording of the multi-target sweep: the same
halving driver, but with the third window `[3, handSize/2]` instead of
the third window the code uses. -/
def claimedCallsGo (fuel cardsInDeck cardsInHand : ℕ) : List (ℕ × ℕ) :=
  match fuel with
  | 0 => []
  | fuel + 1 =>
    if 0 < cardsInDeck ∧ cardsInHand ≤ cardsInDeck then
      (1, 1) :: (2, 2) :: (3, cardsInHand / 2) ::
        claimedCallsGo fuel (cardsInDeck / 2) cardsInHand
    else []

/-- The window trace asserted by the claim. -/
def claimedCalls (cardsInDeck cardsInHand : ℕ) : List (ℕ × ℕ) :=
  claimedCallsGo (cardsInDeck + 1) cardsInDeck cardsInHand

/-! ## The command-line driver (translated from `main`, lines 440-508)

Printing and timing are outside the model; what is modelled is which
validations run and which engine calls are made.  `none` models the
"print a message and return without invoking the engine" path. -/

/-- The `search` subcommand arm of `main` (lines 442-474): validate
`cards_in_deck ≤ 128` and `cards_in_hand ≤ cards_in_deck`, then run the
engine. -/
def runSearch (cardsInHand cardsInDeck : ℕ) (targetQuads : Option ℕ) : Option (ℕ × ℕ) :=
  if 128 < cardsInDeck then none
  else if cardsInDeck < cardsInHand then none
  else some (search cardsInDeck cardsInHand targetQuads)

/-- The found/not-found test the `search` arm applies to the result in
target mode (line 460): `best_score > 0`. -/
def reportsFound (res : ℕ × ℕ) : Bool := decide (0 < res.2)

/-- The `search-all` subcommand arm of `main` (lines 476-507): the
worker threads claim the hand sizes `initial..=max` from an atomic
counter and each runs `search_multi`; collapsed to the sequence of
engine invocations, one per claimed hand size.  The source performs no
validation of `cards_in_deck` or of the hand sizes in this arm. -/
def runSearchAll (initialCardsInHand cardsInDeck : ℕ) (maxCardsInHand : Option ℕ) :
    List (ℕ × List ℕ) :=
  let maxH := maxCardsInHand.getD cardsInDeck
  (List.range' initialCardsInHand (maxH + 1 - initialCardsInHand)).map
    (fun h => (h, searchMulti cardsInDeck h))


/-! ## Combinatorial facts about quads and difference counts -/

theorem xorSum_insert {a : ℕ} {s : Finset ℕ} (h : a ∉ s) :
    xorSum (insert a s) = a ^^^ xorSum s := by
  unfold xorSum
  rw [Finset.fold_insert h]
  rfl

theorem xorSum_singleton (a : ℕ) : xorSum {a} = a := by
  unfold xorSum
  simp

theorem xorSum_pair {a b : ℕ} (h : a ≠ b) : xorSum {a, b} = a ^^^ b := by
  rw [show ({a, b} : Finset ℕ) = insert a {b} from rfl,
    xorSum_insert (by simp [h]), xorSum_singleton]

theorem xorSum_erase {a : ℕ} {s : Finset ℕ} (h : a ∈ s) :
    xorSum (s.erase a) = a ^^^ xorSum s := by
  have h1 : xorSum s = a ^^^ xorSum (s.erase a) := by
    conv_lhs => rw [← Finset.insert_erase h]
    exact xorSum_insert (Finset.not_mem_erase a s)
  rw [h1, Nat.xor_cancel_left]

theorem card_four_set {a b c d : ℕ} (hab : a ≠ b) (hac : a ≠ c) (had : a ≠ d)
    (hbc : b ≠ c) (hbd : b ≠ d) (hcd : c ≠ d) : ({a, b, c, d} : Finset ℕ).card = 4 := by
  rw [Finset.card_insert_of_not_mem (by simp [hab, hac, had]),
    Finset.card_insert_of_not_mem (by simp [hbc, hbd]),
    Finset.card_insert_of_not_mem (by simp [hcd]), Finset.card_singleton]

theorem xorSum_four {a b c d : ℕ} (hab : a ≠ b) (hac : a ≠ c) (had : a ≠ d)
    (hbc : b ≠ c) (hbd : b ≠ d) (hcd : c ≠ d) :
    xorSum {a, b, c, d} = a ^^^ (b ^^^ (c ^^^ d)) := by
  rw [show ({a, b, c, d} : Finset ℕ) = insert a (insert b {c, d}) from rfl,
    xorSum_insert (by simp [hab, hac, had]), xorSum_insert (by simp [hbc, hbd]),
    xorSum_pair hcd]

/-- A 4-element set splits into two unordered pairs with equal XOR exactly
when the XOR of all its elements is 0. -/
theorem isQuadSet_iff {q : Finset ℕ} (hq : q.card = 4) : isQuadSet q ↔ xorSum q = 0 := by
  constructor
  · rintro ⟨a, ha, b, hb, c, hc, d, hd, hab, hac, had, hbc, hbd, hcd, hx⟩
    have hsub : ({a, b, c, d} : Finset ℕ) ⊆ q := by
      intro x hx2
      simp only [Finset.mem_insert, Finset.mem_singleton] at hx2
      rcases hx2 with rfl | rfl | rfl | rfl <;> assumption
    have hEq : ({a, b, c, d} : Finset ℕ) = q :=
      Finset.eq_of_subset_of_card_le hsub
        (by rw [hq, card_four_set hab hac had hbc hbd hcd])
    rw [← hEq, xorSum_four hab hac had hbc hbd hcd, ← Nat.xor_assoc, hx, Nat.xor_self]
  · intro h0
    obtain ⟨a, t, hat, rfl, ht⟩ := Finset.card_eq_succ.mp hq
    obtain ⟨b, c, d, hbc, hbd, hcd, rfl⟩ := Finset.card_eq_three.mp ht
    simp only [Finset.mem_insert, Finset.mem_singleton, not_or] at hat
    obtain ⟨hab, hac, had⟩ := hat
    have hx : a ^^^ b = c ^^^ d := by
      rw [show insert a ({b, c, d} : Finset ℕ) = {a, b, c, d} from rfl,
        xorSum_four hab hac had hbc hbd hcd, ← Nat.xor_assoc] at h0
      exact Nat.xor_eq_zero.mp h0
    exact ⟨a, by simp, b, by simp, c, by simp, d, by simp,
      hab, hac, had, hbc, hbd, hcd, hx⟩

theorem pairCnt_empty (d : ℕ) : pairCnt ∅ d = 0 := by
  unfold pairCnt
  rw [Finset.powersetCard_eq_empty.mpr (by simp)]
  simp

theorem setQuads_empty : setQuads ∅ = 0 := by
  unfold setQuads
  rw [Finset.powersetCard_eq_empty.mpr (by simp)]
  simp

/-- A 2-element subset of a set of cards all below `n` whose XOR equals
`i ^^^ n` cannot contain `i`. -/
theorem pair_xor_not_mem {S : Finset ℕ} {n i : ℕ} (hlt : ∀ x ∈ S, x < n) {p : Finset ℕ}
    (hp : p ∈ S.powersetCard 2) (hx : xorSum p = i ^^^ n) : i ∉ p := by
  obtain ⟨hps, hp2⟩ := Finset.mem_powersetCard.mp hp
  obtain ⟨a, b, hab, rfl⟩ := Finset.card_eq_two.mp hp2
  rw [xorSum_pair hab] at hx
  intro hi
  rcases Finset.mem_insert.mp hi with rfl | hi2
  · have hbn : b = n := by
      calc b = i ^^^ (i ^^^ b) := (Nat.xor_cancel_left i b).symm
        _ = i ^^^ (i ^^^ n) := by rw [hx]
        _ = n := Nat.xor_cancel_left i n
    have hbS : b ∈ S := hps (by simp)
    exact absurd hbn (Nat.ne_of_lt (hlt b hbS))
  · rcases Finset.mem_singleton.mp hi2 with rfl
    have han : a = n := by
      have hx2 : i ^^^ a = i ^^^ n := by rw [Nat.xor_comm i a]; exact hx
      calc a = i ^^^ (i ^^^ a) := (Nat.xor_cancel_left i a).symm
        _ = i ^^^ (i ^^^ n) := by rw [hx2]
        _ = n := Nat.xor_cancel_left i n
    have haS : a ∈ S := hps (by simp)
    exact absurd han (Nat.ne_of_lt (hlt a haS))

/-- Double-counting step: for a set of cards all below `n`, the sum over
cards `i` of the number of pairs with XOR `i ^^^ n` is three times the
number of 3-element subsets whose XOR is `n` (each such triple `t` is
counted once for each choice of `i` in `t`). -/
theorem sum_pairCnt_xor (S : Finset ℕ) (n : ℕ) (hlt : ∀ x ∈ S, x < n) :
    ∑ i ∈ S, pairCnt S (i ^^^ n)
      = 3 * ((S.powersetCard 3).filter (fun t => xorSum t = n)).card := by
  classical
  set T := (S.powersetCard 3).filter (fun t => xorSum t = n) with hT
  have hL : ∑ i ∈ S, pairCnt S (i ^^^ n)
      = (S.sigma (fun i => (S.powersetCard 2).filter (fun p => xorSum p = i ^^^ n))).card := by
    rw [Finset.card_sigma]
    rfl
  have hR2 : (T.sigma (fun t => t)).card = 3 * T.card := by
    rw [Finset.card_sigma]
    have hcard3 : ∀ t ∈ T, t.card = 3 := fun t ht =>
      (Finset.mem_powersetCard.mp (Finset.mem_filter.mp ht).1).2
    rw [Finset.sum_congr rfl hcard3, Finset.sum_const, smul_eq_mul, Nat.mul_comm]
  have hbij : (S.sigma (fun i => (S.powersetCard 2).filter (fun p => xorSum p = i ^^^ n))).card
      = (T.sigma (fun t => t)).card := by
    refine Finset.card_bij' (fun x _ => ⟨insert x.1 x.2, x.1⟩)
      (fun y _ => ⟨y.2, y.1.erase y.2⟩) ?mem1 ?mem2 ?inv1 ?inv2
    case mem1 =>
      rintro ⟨i, p⟩ hx
      simp only [Finset.mem_sigma, Finset.mem_filter, Finset.mem_powersetCard] at hx
      obtain ⟨hiS, ⟨hps, hp2⟩, hpx⟩ := hx
      have hpP : p ∈ S.powersetCard 2 := Finset.mem_powersetCard.mpr ⟨hps, hp2⟩
      have hip : i ∉ p := pair_xor_not_mem hlt hpP hpx
      simp only [Finset.mem_sigma, Finset.mem_filter, Finset.mem_powersetCard, hT]
      refine ⟨⟨⟨Finset.insert_subset hiS hps,
        by rw [Finset.card_insert_of_not_mem hip, hp2]⟩, ?_⟩, Finset.mem_insert_self i p⟩
      rw [xorSum_insert hip, hpx, Nat.xor_cancel_left]
    case mem2 =>
      rintro ⟨t, i⟩ hy
      simp only [Finset.mem_sigma, Finset.mem_filter, Finset.mem_powersetCard, hT] at hy
      obtain ⟨⟨⟨hts, ht3⟩, htx⟩, hit⟩ := hy
      simp only [Finset.mem_sigma, Finset.mem_filter, Finset.mem_powersetCard]
      exact ⟨hts hit, ⟨(Finset.erase_subset i t).trans hts,
        by rw [Finset.card_erase_of_mem hit, ht3]⟩, by rw [xorSum_erase hit, htx]⟩
    case inv1 =>
      rintro ⟨i, p⟩ hx
      simp only [Finset.mem_sigma, Finset.mem_filter, Finset.mem_powersetCard] at hx
      obtain ⟨hiS, ⟨hps, hp2⟩, hpx⟩ := hx
      have hpP : p ∈ S.powersetCard 2 := Finset.mem_powersetCard.mpr ⟨hps, hp2⟩
      have hip : i ∉ p := pair_xor_not_mem hlt hpP hpx
      simp [Finset.erase_insert hip]
    case inv2 =>
      rintro ⟨t, i⟩ hy
      simp only [Finset.mem_sigma] at hy
      simp [Finset.insert_erase hy.2]
  rw [hL, hbij, hR2]

/-- Adding a new card `n` (not previously in the hand) creates exactly one
new pair with XOR `d` when the matching partner `n ^^^ d` is already in
the hand, and none otherwise. -/
theorem pairCnt_insert (S : Finset ℕ) (n d : ℕ) (hn : n ∉ S) :
    pairCnt (insert n S) d = pairCnt S d + (if n ^^^ d ∈ S then 1 else 0) := by
  classical
  have hinj : Set.InjOn (insert n) (↑(S.powersetCard 1) : Set (Finset ℕ)) := by
    intro p hp q hq h
    have hnp : n ∉ p := fun hh =>
      hn ((Finset.mem_powersetCard.mp (Finset.mem_coe.mp hp)).1 hh)
    have hnq : n ∉ q := fun hh =>
      hn ((Finset.mem_powersetCard.mp (Finset.mem_coe.mp hq)).1 hh)
    rw [← Finset.erase_insert hnp, ← Finset.erase_insert hnq, h]
  have hdisj : Disjoint ((S.powersetCard 2).filter (fun p => xorSum p = d))
      (((S.powersetCard 1).image (insert n)).filter (fun p => xorSum p = d)) := by
    rw [Finset.disjoint_left]
    intro p hp1 hp2
    obtain ⟨hpP, _⟩ := Finset.mem_filter.mp hp1
    obtain ⟨hpI, _⟩ := Finset.mem_filter.mp hp2
    obtain ⟨q, _, rfl⟩ := Finset.mem_image.mp hpI
    exact hn ((Finset.mem_powersetCard.mp hpP).1 (Finset.mem_insert_self n q))
  have himg : (((S.powersetCard 1).image (insert n)).filter (fun p => xorSum p = d)).card
      = (if n ^^^ d ∈ S then 1 else 0) := by
    rw [Finset.filter_image, Finset.card_image_of_injOn
      (hinj.mono (by exact_mod_cast Finset.filter_subset _ _)),
      Finset.powersetCard_one, Finset.filter_map, Finset.card_map]
    simp only [Function.comp_def]
    have hpred : ∀ i ∈ S,
        (xorSum (insert n ((⟨singleton, fun _ _ => Finset.singleton_inj.mp⟩ : ℕ ↪ Finset ℕ) i)) = d)
          ↔ i = n ^^^ d := by
      intro i hiS
      have hni : n ∉ ({i} : Finset ℕ) := by
        simp only [Finset.mem_singleton]
        rintro rfl
        exact hn hiS
      simp only [Function.Embedding.coeFn_mk]
      rw [xorSum_insert hni, xorSum_singleton]
      constructor
      · rintro rfl
        rw [Nat.xor_cancel_left]
      · rintro rfl
        rw [Nat.xor_cancel_left]
    rw [Finset.filter_congr hpred, Finset.filter_eq']
    split <;> simp
  unfold pairCnt
  rw [show (2 : ℕ) = 1 + 1 from rfl, Finset.powersetCard_succ_insert hn 1, Finset.filter_union,
    Finset.card_union_of_disjoint hdisj]
  rw [himg]

/-- Adding a new card `n` creates exactly one new quad for every
3-element subset of the old hand whose XOR is `n`. -/
theorem setQuads_insert (S : Finset ℕ) (n : ℕ) (hn : n ∉ S) :
    setQuads (insert n S)
      = setQuads S + ((S.powersetCard 3).filter (fun t => xorSum t = n)).card := by
  classical
  have hinj : Set.InjOn (insert n) (↑(S.powersetCard 3) : Set (Finset ℕ)) := by
    intro p hp q hq h
    have hnp : n ∉ p := fun hh =>
      hn ((Finset.mem_powersetCard.mp (Finset.mem_coe.mp hp)).1 hh)
    have hnq : n ∉ q := fun hh =>
      hn ((Finset.mem_powersetCard.mp (Finset.mem_coe.mp hq)).1 hh)
    rw [← Finset.erase_insert hnp, ← Finset.erase_insert hnq, h]
  have hdisj : Disjoint ((S.powersetCard 4).filter isQuadSet)
      (((S.powersetCard 3).image (insert n)).filter isQuadSet) := by
    rw [Finset.disjoint_left]
    intro p hp1 hp2
    obtain ⟨hpP, _⟩ := Finset.mem_filter.mp hp1
    obtain ⟨hpI, _⟩ := Finset.mem_filter.mp hp2
    obtain ⟨q, _, rfl⟩ := Finset.mem_image.mp hpI
    exact hn ((Finset.mem_powersetCard.mp hpP).1 (Finset.mem_insert_self n q))
  have himg : (((S.powersetCard 3).image (insert n)).filter isQuadSet).card
      = ((S.powersetCard 3).filter (fun t => xorSum t = n)).card := by
    rw [Finset.filter_image, Finset.card_image_of_injOn
      (hinj.mono (by exact_mod_cast Finset.filter_subset _ _))]
    congr 1
    apply Finset.filter_congr
    intro t ht
    obtain ⟨hts, ht3⟩ := Finset.mem_powersetCard.mp ht
    have hnt : n ∉ t := fun hh => hn (hts hh)
    have hc4 : (insert n t).card = 4 := by
      rw [Finset.card_insert_of_not_mem hnt, ht3]
    rw [isQuadSet_iff hc4, xorSum_insert hnt]
    constructor
    · intro h0
      have := Nat.xor_eq_zero.mp h0
      omega
    · rintro h0
      rw [h0, Nat.xor_self]
  unfold setQuads
  rw [show (4 : ℕ) = 3 + 1 from rfl, Finset.powersetCard_succ_insert hn 3, Finset.filter_union,
    Finset.card_union_of_disjoint hdisj]
  rw [himg]

/-- The difference-table entries over all 128 XOR values partition the
pairs of the hand, so their total is `C(card, 2)`. -/
theorem sum_pairCnt_range (S : Finset ℕ) (hS : ∀ x ∈ S, x < 128) :
    ∑ d ∈ Finset.range 128, pairCnt S d = S.card.choose 2 := by
  classical
  have hmem : ∀ p ∈ S.powersetCard 2, xorSum p ∈ Finset.range 128 := by
    intro p hp
    obtain ⟨hps, hp2⟩ := Finset.mem_powersetCard.mp hp
    obtain ⟨a, b, hab, rfl⟩ := Finset.card_eq_two.mp hp2
    rw [xorSum_pair hab, Finset.mem_range]
    have ha : a < 2 ^ 7 := hS a (hps (by simp))
    have hb : b < 2 ^ 7 := hS b (hps (by simp))
    exact Nat.xor_lt_two_pow ha hb
  have h := Finset.card_eq_sum_card_fiberwise hmem
  rw [Finset.card_powersetCard] at h
  exact h.symm

theorem setQuads_le_choose (s : Finset ℕ) : setQuads s ≤ s.card.choose 4 := by
  unfold setQuads
  calc ((s.powersetCard 4).filter isQuadSet).card ≤ (s.powersetCard 4).card :=
        Finset.card_filter_le _ _
    _ = s.card.choose 4 := Finset.card_powersetCard 4 s

theorem mem_handSet {hand x : ℕ} : x ∈ handSet hand ↔ x < 128 ∧ hand.testBit x = true := by
  unfold handSet
  simp [Finset.mem_filter, Finset.mem_range]

theorem handSet_lt {hand n : ℕ} (h : hand < 2 ^ n) : ∀ x ∈ handSet hand, x < n := by
  intro x hx
  obtain ⟨_, hb⟩ := mem_handSet.mp hx
  by_contra hc
  push_neg at hc
  rw [Nat.testBit_lt_two_pow
    (lt_of_lt_of_le h (Nat.pow_le_pow_right (by norm_num) hc))] at hb
  simp at hb

theorem not_mem_handSet {hand x : ℕ} (h : hand.testBit x = false) : x ∉ handSet hand := by
  rw [mem_handSet]
  rintro ⟨_, hb⟩
  rw [h] at hb
  simp at hb

theorem handSet_card_le (hand : ℕ) : (handSet hand).card ≤ 128 := by
  calc (handSet hand).card ≤ (Finset.range 128).card := Finset.card_filter_le _ _
    _ = 128 := Finset.card_range 128

/-- Setting bit `j` of the hand bitmask inserts card `j` into the hand. -/
theorem handSet_or {hand j : ℕ} (hj : j < 128) (hnb : hand.testBit j = false) :
    handSet (hand ||| 1 <<< j) = insert j (handSet hand) := by
  ext x
  rw [mem_handSet, Finset.mem_insert, mem_handSet, Nat.one_shiftLeft, Nat.testBit_or]
  by_cases hxj : x = j
  · subst hxj
    simp [Nat.testBit_two_pow_self, hj]
  · rw [Nat.testBit_two_pow_of_ne (fun h => hxj h.symm)]
    simp [hxj]

theorem handSet_range_filter {hand n : ℕ} (h : hand < 2 ^ n) (hn : n ≤ 128) :
    (Finset.range n).filter (fun i => hand.testBit i) = handSet hand := by
  ext x
  simp only [Finset.mem_filter, Finset.mem_range, mem_handSet]
  constructor
  · rintro ⟨hx, hb⟩
    exact ⟨lt_of_lt_of_le hx hn, hb⟩
  · rintro ⟨hx, hb⟩
    refine ⟨?_, hb⟩
    by_contra hc
    push_neg at hc
    rw [Nat.testBit_lt_two_pow
      (lt_of_lt_of_le h (Nat.pow_le_pow_right (by norm_num) hc))] at hb
    simp at hb

theorem list_range_map_sum (f : ℕ → ℕ) (n : ℕ) :
    ((List.range n).map f).sum = ∑ i ∈ Finset.range n, f i := by
  induction n with
  | zero => simp
  | succ n ih =>
    rw [List.range_succ, List.map_append, List.sum_append, Finset.sum_range_succ, ih]
    simp

theorem foldl_add_ite (p : ℕ → Bool) (f : ℕ → ℕ) (L : List ℕ) (a : ℕ) :
    L.foldl (fun q i => if p i then q + f i else q) a
      = a + (L.map (fun i => if p i then f i else 0)).sum := by
  induction L generalizing a with
  | nil => simp
  | cons i is ih =>
    rw [List.foldl_cons, ih, List.map_cons, List.sum_cons]
    by_cases h : p i = true
    · rw [if_pos h, if_pos h]
      ring
    · rw [if_neg h, if_neg h]
      ring

/-- The Finalize raw count is the carried count plus the sum of the
table entries at `i ^^^ j` over the cards `i` of the hand. -/
theorem finQuads_sum (hand : ℕ) (diffs : ℕ → ℕ) (n j q : ℕ) :
    finQuads hand diffs n j q
      = q + ∑ i ∈ (Finset.range n).filter (fun i => hand.testBit i), diffs (i ^^^ j) := by
  unfold finQuads
  rw [foldl_add_ite]
  congr 1
  rw [list_range_map_sum, Finset.sum_filter]

/-- Difference-table entries never exceed `max_diff_count + 1` during the
insertion loop, and stay at most `max_diff_count` when the loop finishes
without the break. -/
theorem extLoop_bound (hand nI maxDiff : ℕ) (L : List ℕ) :
    ∀ (diffs : ℕ → ℕ) (quads : ℕ), (∀ x, diffs x ≤ maxDiff) →
      (∀ x, (extLoop hand nI maxDiff L diffs quads).diffs x ≤ maxDiff + 1)
      ∧ ((extLoop hand nI maxDiff L diffs quads).good = true →
          ∀ x, (extLoop hand nI maxDiff L diffs quads).diffs x ≤ maxDiff) := by
  induction L with
  | nil =>
    intro diffs quads hb
    exact ⟨fun x => (hb x).trans (Nat.le_succ _), fun _ => hb⟩
  | cons i is ih =>
    intro diffs quads hb
    by_cases hbit : hand.testBit i = true
    · by_cases hover : maxDiff < diffs (i ^^^ nI) + 1
      · simp only [extLoop, hbit, if_true, if_pos hover]
        constructor
        · intro x
          by_cases hx : x = i ^^^ nI
          · subst hx
            rw [Function.update_same]
            have := hb (i ^^^ nI)
            omega
          · rw [Function.update_noteq hx]
            exact (hb x).trans (Nat.le_succ _)
        · intro hg
          simp at hg
      · have hb2 : ∀ x, Function.update diffs (i ^^^ nI) (diffs (i ^^^ nI) + 1) x ≤ maxDiff := by
          intro x
          by_cases hx : x = i ^^^ nI
          · subst hx
            rw [Function.update_same]
            omega
          · rw [Function.update_noteq hx]
            exact hb x
        simp only [extLoop, hbit, if_true, if_neg hover]
        exact ih _ _ hb2
    · simp only [extLoop, hbit, if_false]
      exact ih _ _ hb

/-- Characterisation of a break-free insertion loop run: entry `x` grows
by one exactly when the matching partner `x ^^^ next_index` is a card of
the hand listed in `L`, and the raw count grows by the sum of the
pre-insertion entries at `i ^^^ next_index` over the listed cards `i` of
the hand. -/
theorem extLoop_good_char (hand nI maxDiff : ℕ) (L : List ℕ) (hL : L.Nodup) :
    ∀ diffs quads, (extLoop hand nI maxDiff L diffs quads).good = true →
      (∀ x, (extLoop hand nI maxDiff L diffs quads).diffs x
          = diffs x + (if x ^^^ nI ∈ L ∧ hand.testBit (x ^^^ nI) = true then 1 else 0))
      ∧ (extLoop hand nI maxDiff L diffs quads).quads
          = quads + ((L.filter (fun i => hand.testBit i)).map (fun i => diffs (i ^^^ nI))).sum := by
  induction L with
  | nil =>
    intro diffs quads _
    simp [extLoop]
  | cons i is ih =>
    intro diffs quads hg
    obtain ⟨hi_is, hnd⟩ := List.nodup_cons.mp hL
    by_cases hbit : hand.testBit i = true
    · by_cases hover : maxDiff < diffs (i ^^^ nI) + 1
      · exfalso
        simp only [extLoop, hbit, if_true, if_pos hover] at hg
        simp at hg
      · simp only [extLoop, hbit, if_true, if_neg hover] at hg ⊢
        obtain ⟨ihd, ihq⟩ := ih hnd _ _ hg
        constructor
        · intro x
          rw [ihd x]
          by_cases hx : x = i ^^^ nI
          · subst hx
            have hxor : (i ^^^ nI) ^^^ nI = i := Nat.xor_cancel_right nI i
            rw [Function.update_same, hxor]
            have hnotin : i ∉ is := hi_is
            simp [hnotin, hbit]
          · have hxor2 : x ^^^ nI ≠ i := by
              intro h
              apply hx
              rw [← h, Nat.xor_cancel_right]
            rw [Function.update_noteq hx]
            simp [List.mem_cons, hxor2]
        · rw [ihq]
          have hmap : (is.filter (fun i2 => hand.testBit i2)).map
                (fun i2 => Function.update diffs (i ^^^ nI) (diffs (i ^^^ nI) + 1) (i2 ^^^ nI))
              = (is.filter (fun i2 => hand.testBit i2)).map (fun i2 => diffs (i2 ^^^ nI)) := by
            apply List.map_congr_left
            intro i2 hi2
            have hne : i2 ≠ i := by
              intro h
              exact hi_is (h ▸ List.mem_of_mem_filter hi2)
            have : i2 ^^^ nI ≠ i ^^^ nI := by
              intro h
              apply hne
              have := congrArg (fun y => y ^^^ nI) h
              simpa [Nat.xor_cancel_right] using this
            rw [Function.update_noteq this]
          rw [hmap, List.filter_cons_of_pos (by simp [hbit]), List.map_cons, List.sum_cons]
          omega
    · rw [Bool.not_eq_true] at hbit
      simp only [extLoop, hbit, Bool.false_eq_true, if_false] at hg ⊢
      obtain ⟨ihd, ihq⟩ := ih hnd _ _ hg
      constructor
      · intro x
        rw [ihd x]
        by_cases hx2 : x ^^^ nI = i
        · have hbf : hand.testBit (x ^^^ nI) = true ↔ False := by
            rw [hx2]
            simp [hbit]
          simp [List.mem_cons, hbf]
        · simp [List.mem_cons, hx2]
      · rw [ihq, List.filter_cons_of_neg (by simp [hbit])]

theorem list_filter_map_sum (p : ℕ → Bool) (f : ℕ → ℕ) (n : ℕ) :
    (((List.range n).filter (fun i => p i)).map f).sum
      = ∑ i ∈ (Finset.range n).filter (fun i => p i), f i := by
  induction n with
  | zero => simp
  | succ n ih =>
    rw [List.range_succ, List.filter_append, List.map_append, List.sum_append,
      Finset.range_succ]
    by_cases hp : p n = true
    · rw [Finset.filter_insert, if_pos hp, Finset.sum_insert (by simp)]
      simp only [List.filter_cons, hp, if_true, List.filter_nil, List.map_cons, List.map_nil,
        List.sum_cons, List.sum_nil, ih]
      ring
    · rw [Finset.filter_insert, if_neg hp]
      simp only [List.filter_cons, hp, List.filter_nil, List.map_nil, List.sum_nil, ih]
      simp

/-- Consistency of a search frame: every hand bit is below the next
candidate index, the difference table counts the pairs of the hand, and
the carried raw count is three times the quad count of the hand. -/
def FrameInv (hand : ℕ) (diffs : ℕ → ℕ) (nextIndex quads : ℕ) : Prop :=
  hand < 2 ^ nextIndex
  ∧ (∀ d, diffs d = pairCnt (handSet hand) d)
  ∧ quads = 3 * setQuads (handSet hand)

theorem FrameInv_init : FrameInv 0 (fun _ => 0) 0 0 := by
  have hset : handSet 0 = ∅ := by
    ext x
    simp [mem_handSet, Nat.zero_testBit]
  refine ⟨by norm_num, fun d => ?_, ?_⟩
  · rw [hset, pairCnt_empty]
  · rw [hset, setQuads_empty]

/-- The include branch of the Extend state preserves frame consistency:
after a break-free insertion of card `next_index`, the updated table
counts the pairs of the extended hand and the updated raw count is three
times its quad count. -/
theorem extendCalc_step (hand nI maxDiff : ℕ) (diffs : ℕ → ℕ) (quads : ℕ)
    (hinv : FrameInv hand diffs nI quads) (hn128 : nI < 128)
    (hg : (extendCalc hand nI maxDiff diffs quads).good = true) :
    FrameInv (hand ||| 1 <<< nI) (extendCalc hand nI maxDiff diffs quads).diffs (nI + 1)
      (extendCalc hand nI maxDiff diffs quads).quads := by
  obtain ⟨hlt, hdf, hq⟩ := hinv
  have hbitn : hand.testBit nI = false := Nat.testBit_lt_two_pow hlt
  have hSset : handSet (hand ||| 1 <<< nI) = insert nI (handSet hand) :=
    handSet_or hn128 hbitn
  have hnotin : nI ∉ handSet hand := not_mem_handSet hbitn
  have hltS : ∀ x ∈ handSet hand, x < nI := handSet_lt hlt
  obtain ⟨hchar_d, hchar_q⟩ :=
    extLoop_good_char hand nI maxDiff (List.range nI) (List.nodup_range nI) diffs quads hg
  refine ⟨?_, fun d => ?_, ?_⟩
  · rw [Nat.one_shiftLeft]
    have h2 : 2 ^ nI < 2 ^ (nI + 1) := by
      rw [pow_succ]
      have := Nat.pos_pow_of_pos nI (show 0 < 2 by norm_num)
      omega
    exact Nat.or_lt_two_pow (hlt.trans h2) h2
  · show (extLoop hand nI maxDiff (List.range nI) diffs quads).diffs d = _
    rw [hchar_d d, hdf d, hSset, pairCnt_insert _ _ _ hnotin]
    congr 1
    by_cases hmem : hand.testBit (d ^^^ nI) = true
    · have hlt2 : d ^^^ nI < nI := by
        by_contra hc
        push_neg at hc
        rw [Nat.testBit_lt_two_pow
          (lt_of_lt_of_le hlt (Nat.pow_le_pow_right (by norm_num) hc))] at hmem
        simp at hmem
      have h1 : d ^^^ nI ∈ List.range nI := List.mem_range.mpr hlt2
      have h2 : nI ^^^ d ∈ handSet hand := mem_handSet.mpr
        ⟨by rw [Nat.xor_comm]; omega, by rw [Nat.xor_comm]; exact hmem⟩
      simp [h1, hmem, h2]
    · have h2 : nI ^^^ d ∉ handSet hand := by
        rw [Nat.xor_comm]
        exact not_mem_handSet (Bool.not_eq_true _ |>.mp hmem)
      simp [hmem, h2]
  · show (extLoop hand nI maxDiff (List.range nI) diffs quads).quads = _
    rw [hchar_q, hq, hSset, setQuads_insert _ _ hnotin]
    rw [show ((List.range nI).filter (fun i => hand.testBit i)).map (fun i => diffs (i ^^^ nI))
        = ((List.range nI).filter (fun i => hand.testBit i)).map (fun i => diffs (i ^^^ nI))
      from rfl]
    rw [list_filter_map_sum (fun i => hand.testBit i) (fun i => diffs (i ^^^ nI)) nI]
    rw [handSet_range_filter hlt (by omega)]
    rw [Finset.sum_congr rfl (fun i _ => hdf (i ^^^ nI)), sum_pairCnt_xor (handSet hand) nI hltS]
    ring

/-- The Finalize raw count for a consistent frame is exactly three times
the quad count of the hand extended with the candidate `j`. -/
theorem finQuads_inv (hand : ℕ) (diffs : ℕ → ℕ) (nI quads j : ℕ)
    (hinv : FrameInv hand diffs nI quads) (hj : nI ≤ j) (hj128 : j < 128) :
    finQuads hand diffs nI j quads = 3 * setQuads (handSet (hand ||| 1 <<< j)) := by
  obtain ⟨hlt, hdf, hq⟩ := hinv
  have hbitj : hand.testBit j = false := Nat.testBit_lt_two_pow
    (lt_of_lt_of_le hlt (Nat.pow_le_pow_right (by norm_num) hj))
  have hSset : handSet (hand ||| 1 <<< j) = insert j (handSet hand) := handSet_or hj128 hbitj
  have hnotin : j ∉ handSet hand := not_mem_handSet hbitj
  have hltS : ∀ x ∈ handSet hand, x < j := fun x hx =>
    lt_of_lt_of_le (handSet_lt hlt x hx) hj
  rw [finQuads_sum, handSet_range_filter hlt (by omega), hSset,
    setQuads_insert _ _ hnotin, hq]
  rw [Finset.sum_congr rfl (fun i _ => hdf (i ^^^ j)), sum_pairCnt_xor (handSet hand) j hltS]
  ring

theorem FrameInv_skip {hand : ℕ} {diffs : ℕ → ℕ} {nI quads : ℕ}
    (h : FrameInv hand diffs nI quads) : FrameInv hand diffs (nI + 1) quads := by
  obtain ⟨hlt, hdf, hq⟩ := h
  refine ⟨?_, hdf, hq⟩
  have : (2 : ℕ) ^ nI ≤ 2 ^ (nI + 1) := Nat.pow_le_pow_right (by norm_num) (Nat.le_succ nI)
  omega

theorem tblOf_of_inv {hand : ℕ} {diffs : ℕ → ℕ} {nI quads : ℕ}
    (h : FrameInv hand diffs nI quads) :
    tblOf diffs = (List.range 128).map (fun d => pairCnt (handSet hand) d) :=
  List.map_congr_left (fun d _ => h.2.1 d)

theorem tblOf_bound {diffs : ℕ → ℕ} {maxDiff : ℕ} (h : ∀ x, diffs x ≤ maxDiff) :
    ∀ v ∈ tblOf diffs, v ≤ maxDiff := by
  intro v hv
  obtain ⟨d, _, rfl⟩ := List.mem_map.mp hv
  exact h d

/-- Invariant properties of recorded trace events for a consistent run.
A recursive-call event carries the pair-count table of its hand, a raw
count equal to three times its hand's quad count, a hand whose bits lie
below its candidate index (itself at most 128), and table entries at
most `max_diff_count`.  A Finalize event carries a raw count equal to
three times the quad count of the hand extended with its fresh (below
128) candidate.  Extend events are constrained separately. -/
def EvOK (maxDiff : ℕ) : Ev → Prop
  | Ev.call _ h tbl nI _ q =>
      tbl = (List.range 128).map (fun d => pairCnt (handSet h) d)
      ∧ q = 3 * setQuads (handSet h)
      ∧ h < 2 ^ nI ∧ nI ≤ 128
      ∧ ∀ v ∈ tbl, v ≤ maxDiff
  | Ev.ext _ _ _ _ _ => True
  | Ev.fin h j q2 =>
      q2 = 3 * setQuads (handSet (h ||| 1 <<< j)) ∧ j < 128 ∧ h.testBit j = false

/-- All Finalize events of the `search_inner` Finalize loop satisfy the
event invariant when the frame is consistent. -/
theorem finLoop_evOK (maxDiff : ℕ) (hand : ℕ) (diffs : ℕ → ℕ) (nI quads : ℕ)
    (target : Option ℕ) (js : List ℕ)
    (hinv : FrameInv hand diffs nI quads) (hjs : ∀ j ∈ js, nI ≤ j ∧ j < 128) :
    ∀ best, ∀ e ∈ (finLoop hand diffs nI quads target js best).evs, EvOK maxDiff e := by
  induction js with
  | nil =>
    intro best e he
    simp [finLoop] at he
  | cons j js ih =>
    intro best e he
    have hj := hjs j (by simp)
    have hfin : EvOK maxDiff (Ev.fin hand j (finQuads hand diffs nI j quads)) := by
      refine ⟨finQuads_inv hand diffs nI quads j hinv hj.1 hj.2, hj.2, ?_⟩
      exact Nat.testBit_lt_two_pow
        (lt_of_lt_of_le hinv.1 (Nat.pow_le_pow_right (by norm_num) hj.1))
    match target with
    | some t =>
      simp only [finLoop, List.mem_singleton] at he
      subst he
      exact hfin
    | none =>
      simp only [finLoop, List.mem_cons] at he
      rcases he with rfl | he2
      · exact hfin
      · exact ih (fun j2 hj2 => hjs j2 (by simp [hj2])) _ e he2

/-- Master invariant of `search_inner`: every trace event of a run from
a consistent frame satisfies the event invariant. -/
theorem searchInner_evOK (fuel : ℕ) :
    ∀ (hand : ℕ) (diffs : ℕ → ℕ) (minDiff maxDiff nI maxIndex cih cta quads : ℕ)
      (target : Option ℕ) (best : ℕ × ℕ),
      maxIndex ≤ 128 →
      FrameInv hand diffs nI quads →
      (∀ x, diffs x ≤ maxDiff) →
      ∀ e ∈ (searchInner fuel hand diffs minDiff maxDiff nI maxIndex cih cta quads
          target best).evs, EvOK maxDiff e := by
  induction fuel with
  | zero =>
    intro hand diffs minDiff maxDiff nI maxIndex cih cta quads target best _ _ _ e he
    simp [searchInner] at he
  | succ fuel ih =>
    intro hand diffs minDiff maxDiff nI maxIndex cih cta quads target best hmax hinv hbd e he
    simp only [searchInner] at he
    by_cases hg1 : maxIndex < nI + cta ∨ cta = 0
    · rw [if_pos hg1] at he
      simp at he
    · rw [if_neg hg1] at he
      push_neg at hg1
      obtain ⟨hle, hcta0⟩ := hg1
      by_cases hc2 : (1 <<< ilog2 (ilog2 hand)) * 2 < nI
      · rw [if_pos hc2] at he
        simp at he
      · rw [if_neg hc2] at he
        by_cases hc3 : 1 < cta
        · rw [if_pos hc3] at he
          have hn128 : nI < 128 := by omega
          have hinvSkip := FrameInv_skip hinv
          have hcallSkip : EvOK maxDiff
              (Ev.call true hand (tblOf diffs) (nI + 1) cta quads) :=
            ⟨tblOf_of_inv hinv, hinv.2.2, hinvSkip.1, by omega, tblOf_bound hbd⟩
          have hihSkip := ih hand diffs minDiff maxDiff (nI + 1) maxIndex cih cta quads
            target
          by_cases hc4 : (extendCalc hand nI maxDiff diffs quads).good = true
              ∧ ∀ t ∈ target, (extendCalc hand nI maxDiff diffs quads).quads ≤ t * 3
          · rw [if_pos hc4] at he
            have hst := extendCalc_step hand nI maxDiff diffs quads hinv hn128 hc4.1
            have hstb : ∀ x, (extendCalc hand nI maxDiff diffs quads).diffs x ≤ maxDiff :=
              (extLoop_bound hand nI maxDiff (List.range nI) diffs quads hbd).2 hc4.1
            have hcallInc : EvOK maxDiff (Ev.call false (hand ||| 1 <<< nI)
                (tblOf (extendCalc hand nI maxDiff diffs quads).diffs) (nI + 1) (cta - 1)
                (extendCalc hand nI maxDiff diffs quads).quads) :=
              ⟨tblOf_of_inv hst, hst.2.2, hst.1, by omega, tblOf_bound hstb⟩
            have hihInc := ih (hand ||| 1 <<< nI)
              (extendCalc hand nI maxDiff diffs quads).diffs minDiff maxDiff (nI + 1)
              maxIndex cih (cta - 1) (extendCalc hand nI maxDiff diffs quads).quads
              target best hmax hst hstb
            by_cases hc5 : (searchInner fuel (hand ||| 1 <<< nI)
                (extendCalc hand nI maxDiff diffs quads).diffs minDiff maxDiff (nI + 1)
                maxIndex cih (cta - 1) (extendCalc hand nI maxDiff diffs quads).quads
                target best).cont = false
            · rw [if_pos hc5] at he
              simp only [List.mem_cons] at he
              rcases he with rfl | rfl | he2
              · trivial
              · exact hcallInc
              · exact hihInc e he2
            · rw [if_neg hc5] at he
              by_cases hc6 : minDiff * 2 ≤ nI
              · rw [if_pos hc6] at he
                simp only [List.mem_cons, List.mem_append] at he
                rcases he with rfl | (rfl | her1) | (rfl | her2)
                · trivial
                · exact hcallInc
                · exact hihInc e her1
                · exact hcallSkip
                · exact hihSkip
                    (searchInner fuel (hand ||| 1 <<< nI)
                      (extendCalc hand nI maxDiff diffs quads).diffs minDiff maxDiff (nI + 1)
                      maxIndex cih (cta - 1) (extendCalc hand nI maxDiff diffs quads).quads
                      target best).best hmax hinvSkip hbd e her2
              · rw [if_neg hc6] at he
                simp only [List.mem_cons] at he
                rcases he with rfl | rfl | he2
                · trivial
                · exact hcallInc
                · exact hihInc e he2
          · rw [if_neg hc4] at he
            by_cases hc6 : minDiff * 2 ≤ nI
            · rw [if_pos hc6] at he
              simp only [List.mem_cons] at he
              rcases he with rfl | rfl | he2
              · trivial
              · exact hcallSkip
              · exact hihSkip best hmax hinvSkip hbd e he2
            · rw [if_neg hc6] at he
              simp only [List.mem_singleton] at he
              subst he
              trivial
        · rw [if_neg hc3] at he
          refine finLoop_evOK maxDiff hand diffs nI quads target _ hinv ?_ best e he
          intro j hj
          rw [List.mem_range'_1] at hj
          have hm1 := Nat.min_le_left maxIndex ((1 <<< ilog2 (ilog2 hand)) * 2 + 1)
          omega

/-- All Finalize events of the `search_inner_multi` Finalize loop
satisfy the event invariant when the frame is consistent. -/
theorem finLoopMulti_evOK (maxDiff : ℕ) (hand : ℕ) (diffs : ℕ → ℕ) (nI quads maxIndex : ℕ)
    (js : List ℕ) (hinv : FrameInv hand diffs nI quads)
    (hjs : ∀ j ∈ js, nI ≤ j ∧ j < 128) :
    ∀ bs, ∀ e ∈ (finLoopMulti hand diffs nI quads maxIndex js bs).evs, EvOK maxDiff e := by
  induction js with
  | nil =>
    intro bs e he
    simp [finLoopMulti] at he
  | cons j js ih =>
    intro bs e he
    have hj := hjs j (by simp)
    simp only [finLoopMulti, List.mem_cons] at he
    rcases he with rfl | he2
    · refine ⟨finQuads_inv hand diffs nI quads j hinv hj.1 hj.2, hj.2, ?_⟩
      exact Nat.testBit_lt_two_pow
        (lt_of_lt_of_le hinv.1 (Nat.pow_le_pow_right (by norm_num) hj.1))
    · exact ih (fun j2 hj2 => hjs j2 (by simp [hj2])) _ e he2

/-- Master invariant of `search_inner_multi`: every trace event of a run
from a consistent frame satisfies the event invariant. -/
theorem searchInnerMulti_evOK (fuel : ℕ) :
    ∀ (hand : ℕ) (diffs : ℕ → ℕ) (minDiff maxDiff nI maxIndex cih cta quads : ℕ)
      (bs : List ℕ),
      maxIndex ≤ 128 →
      FrameInv hand diffs nI quads →
      (∀ x, diffs x ≤ maxDiff) →
      ∀ e ∈ (searchInnerMulti fuel hand diffs minDiff maxDiff nI maxIndex cih cta quads
          bs).evs, EvOK maxDiff e := by
  induction fuel with
  | zero =>
    intro hand diffs minDiff maxDiff nI maxIndex cih cta quads bs _ _ _ e he
    simp [searchInnerMulti] at he
  | succ fuel ih =>
    intro hand diffs minDiff maxDiff nI maxIndex cih cta quads bs hmax hinv hbd e he
    simp only [searchInnerMulti] at he
    by_cases hg1 : maxIndex < nI + cta ∨ cta = 0
    · rw [if_pos hg1] at he
      simp at he
    · rw [if_neg hg1] at he
      push_neg at hg1
      obtain ⟨hle, hcta0⟩ := hg1
      by_cases hc2 : (1 <<< ilog2 (ilog2 hand)) * 2 < nI
      · rw [if_pos hc2] at he
        simp at he
      · rw [if_neg hc2] at he
        by_cases hc3 : 1 < cta
        · rw [if_pos hc3] at he
          have hn128 : nI < 128 := by omega
          have hinvSkip := FrameInv_skip hinv
          have hcallSkip : EvOK maxDiff
              (Ev.call true hand (tblOf diffs) (nI + 1) cta quads) :=
            ⟨tblOf_of_inv hinv, hinv.2.2, hinvSkip.1, by omega, tblOf_bound hbd⟩
          by_cases hc4 : (extendCalc hand nI maxDiff diffs quads).good = true
          · rw [if_pos hc4] at he
            have hst := extendCalc_step hand nI maxDiff diffs quads hinv hn128 hc4
            have hstb : ∀ x, (extendCalc hand nI maxDiff diffs quads).diffs x ≤ maxDiff :=
              (extLoop_bound hand nI maxDiff (List.range nI) diffs quads hbd).2 hc4
            have hcallInc : EvOK maxDiff (Ev.call false (hand ||| 1 <<< nI)
                (tblOf (extendCalc hand nI maxDiff diffs quads).diffs) (nI + 1) (cta - 1)
                (extendCalc hand nI maxDiff diffs quads).quads) :=
              ⟨tblOf_of_inv hst, hst.2.2, hst.1, by omega, tblOf_bound hstb⟩
            have hihInc := ih (hand ||| 1 <<< nI)
              (extendCalc hand nI maxDiff diffs quads).diffs minDiff maxDiff (nI + 1)
              maxIndex cih (cta - 1) (extendCalc hand nI maxDiff diffs quads).quads
              bs hmax hst hstb
            by_cases hc6 : minDiff * 2 ≤ nI
            · rw [if_pos hc6] at he
              simp only [List.mem_cons, List.mem_append] at he
              rcases he with rfl | (rfl | her1) | (rfl | her2)
              · trivial
              · exact hcallInc
              · exact hihInc e her1
              · exact hcallSkip
              · exact ih hand diffs minDiff maxDiff (nI + 1) maxIndex cih cta quads
                  (searchInnerMulti fuel (hand ||| 1 <<< nI)
                    (extendCalc hand nI maxDiff diffs quads).diffs minDiff maxDiff (nI + 1)
                    maxIndex cih (cta - 1) (extendCalc hand nI maxDiff diffs quads).quads
                    bs).scores hmax hinvSkip hbd e her2
            · rw [if_neg hc6] at he
              simp only [List.mem_cons] at he
              rcases he with rfl | rfl | he2
              · trivial
              · exact hcallInc
              · exact hihInc e he2
          · rw [if_neg hc4] at he
            by_cases hc6 : minDiff * 2 ≤ nI
            · rw [if_pos hc6] at he
              simp only [List.mem_cons, List.mem_append, List.not_mem_nil, false_or] at he
              rcases he with rfl | rfl | he2
              · trivial
              · exact hcallSkip
              · exact ih hand diffs minDiff maxDiff (nI + 1) maxIndex cih cta quads
                  bs hmax hinvSkip hbd e he2
            · rw [if_neg hc6] at he
              simp only [List.mem_singleton] at he
              subst he
              trivial
        · rw [if_neg hc3] at he
          refine finLoopMulti_evOK maxDiff hand diffs nI quads maxIndex _ hinv ?_ bs e he
          intro j hj
          rw [List.mem_range'_1] at hj
          have hm1 := Nat.min_le_left maxIndex ((1 <<< ilog2 (ilog2 hand)) * 2 + 1)
          omega

/-- In target mode the Finalize loop never increases the best score, and
leaves the whole accumulator unchanged when the score is unchanged. -/
theorem finLoop_target_mono (hand : ℕ) (diffs : ℕ → ℕ) (nI quads t : ℕ) (js : List ℕ) :
    ∀ best : ℕ × ℕ,
      (finLoop hand diffs nI quads (some t) js best).best.1 ≤ best.1
      ∧ ((finLoop hand diffs nI quads (some t) js best).best.1 = best.1 →
          (finLoop hand diffs nI quads (some t) js best).best = best) := by
  cases js with
  | nil =>
    intro best
    exact ⟨le_refl _, fun _ => rfl⟩
  | cons j js =>
    intro best
    simp only [finLoop]
    by_cases hupd : finQuads hand diffs nI j quads / 3 = t ∧ j < best.1
    · rw [if_pos hupd]
      refine ⟨le_of_lt hupd.2, fun h => ?_⟩
      exfalso
      have := hupd.2
      simp only at h
      omega
    · rw [if_neg hupd]
      exact ⟨le_refl _, fun _ => rfl⟩

/-- In target mode `search_inner` never increases the best score, and
leaves the whole accumulator unchanged when the score is unchanged. -/
theorem searchInner_target_mono (fuel : ℕ) :
    ∀ (hand : ℕ) (diffs : ℕ → ℕ) (minDiff maxDiff nI maxIndex cih cta quads t : ℕ)
      (best : ℕ × ℕ),
      (searchInner fuel hand diffs minDiff maxDiff nI maxIndex cih cta quads
          (some t) best).best.1 ≤ best.1
      ∧ ((searchInner fuel hand diffs minDiff maxDiff nI maxIndex cih cta quads
          (some t) best).best.1 = best.1 →
          (searchInner fuel hand diffs minDiff maxDiff nI maxIndex cih cta quads
            (some t) best).best = best) := by
  induction fuel with
  | zero =>
    intro hand diffs minDiff maxDiff nI maxIndex cih cta quads t best
    exact ⟨le_refl _, fun _ => rfl⟩
  | succ fuel ih =>
    intro hand diffs minDiff maxDiff nI maxIndex cih cta quads t best
    simp only [searchInner]
    by_cases hg1 : maxIndex < nI + cta ∨ cta = 0
    · rw [if_pos hg1]
      exact ⟨le_refl _, fun _ => rfl⟩
    · rw [if_neg hg1]
      by_cases hc2 : (1 <<< ilog2 (ilog2 hand)) * 2 < nI
      · rw [if_pos hc2]
        exact ⟨le_refl _, fun _ => rfl⟩
      · rw [if_neg hc2]
        by_cases hc3 : 1 < cta
        · rw [if_pos hc3]
          by_cases hc4 : (extendCalc hand nI maxDiff diffs quads).good = true
              ∧ ∀ t2 ∈ some t, (extendCalc hand nI maxDiff diffs quads).quads ≤ t2 * 3
          · rw [if_pos hc4]
            have ih1 := ih (hand ||| 1 <<< nI) (extendCalc hand nI maxDiff diffs quads).diffs
              minDiff maxDiff (nI + 1) maxIndex cih (cta - 1)
              (extendCalc hand nI maxDiff diffs quads).quads t best
            by_cases hc5 : (searchInner fuel (hand ||| 1 <<< nI)
                (extendCalc hand nI maxDiff diffs quads).diffs minDiff maxDiff (nI + 1)
                maxIndex cih (cta - 1) (extendCalc hand nI maxDiff diffs quads).quads
                (some t) best).cont = false
            · rw [if_pos hc5]
              exact ih1
            · rw [if_neg hc5]
              by_cases hc6 : minDiff * 2 ≤ nI
              · rw [if_pos hc6]
                dsimp only
                have ih2 := ih hand diffs minDiff maxDiff (nI + 1) maxIndex cih cta quads t
                  (searchInner fuel (hand ||| 1 <<< nI)
                    (extendCalc hand nI maxDiff diffs quads).diffs minDiff maxDiff (nI + 1)
                    maxIndex cih (cta - 1) (extendCalc hand nI maxDiff diffs quads).quads
                    (some t) best).best
                refine ⟨ih2.1.trans ih1.1, fun h => ?_⟩
                have h1 : (searchInner fuel (hand ||| 1 <<< nI)
                    (extendCalc hand nI maxDiff diffs quads).diffs minDiff maxDiff (nI + 1)
                    maxIndex cih (cta - 1) (extendCalc hand nI maxDiff diffs quads).quads
                    (some t) best).best.1 = best.1 := by
                  have := ih2.1
                  have := ih1.1
                  omega
                have hr1 := ih1.2 h1
                have hr2 := ih2.2 (by omega)
                rw [hr2, hr1]
              · rw [if_neg hc6]
                exact ih1
          · rw [if_neg hc4]
            by_cases hc6 : minDiff * 2 ≤ nI
            · rw [if_pos hc6]
              exact ih hand diffs minDiff maxDiff (nI + 1) maxIndex cih cta quads t best
            · rw [if_neg hc6]
              exact ⟨le_refl _, fun _ => rfl⟩
        · rw [if_neg hc3]
          exact finLoop_target_mono hand diffs nI quads t _ best

theorem chain3 (b0 b1 b2 b3 : ℕ × ℕ)
    (h1 : b1.1 ≤ b0.1 ∧ (b1.1 = b0.1 → b1 = b0))
    (h2 : b2.1 ≤ b1.1 ∧ (b2.1 = b1.1 → b2 = b1))
    (h3 : b3.1 ≤ b2.1 ∧ (b3.1 = b2.1 → b3 = b2)) :
    b3.1 = b0.1 → b3 = b0 := by
  intro h
  obtain ⟨h1l, h1e⟩ := h1
  obtain ⟨h2l, h2e⟩ := h2
  obtain ⟨h3l, h3e⟩ := h3
  have e1 : b1.1 = b0.1 := by omega
  have e2 : b2.1 = b1.1 := by omega
  have e3 : b3.1 = b2.1 := by omega
  rw [h3e e3, h2e e2, h1e e1]

/-- In exact-target mode, when the final best score still equals the
deck-size sentinel, the whole result is the untouched initial
accumulator: placeholder hand `(1 <<< cards_in_hand) - 1` and sentinel
score `cards_in_deck`. -/
theorem search_target_sentinel (d h t : ℕ) (hs : (search d h (some t)).2 = d) :
    search d h (some t) = ((1 <<< h) - 1, d) := by
  simp only [search] at hs ⊢
  split_ifs at hs ⊢
  · have m1 := searchInner_target_mono (d + 1) 0 (fun _ => 0) 1 1 0 d h h 0 t
      (d, 1 <<< h - 1)
    have m2 := searchInner_target_mono (d + 1) 0 (fun _ => 0) 2 2 0 d h h 0 t
      (searchInner (d + 1) 0 (fun _ => 0) 1 1 0 d h h 0 (some t) (d, 1 <<< h - 1)).best
    have m3 := searchInner_target_mono (d + 1) 0 (fun _ => 0) 3 (d / 2) 0 d h h 0 t
      (searchInner (d + 1) 0 (fun _ => 0) 2 2 0 d h h 0 (some t)
        (searchInner (d + 1) 0 (fun _ => 0) 1 1 0 d h h 0 (some t) (d, 1 <<< h - 1)).best).best
    have hres := chain3 _ _ _ _ m1 m2 m3 hs
    rw [hres]
  · have m2 := searchInner_target_mono (d + 1) 0 (fun _ => 0) 2 2 0 d h h 0 t
      (d, 1 <<< h - 1)
    have m3 := searchInner_target_mono (d + 1) 0 (fun _ => 0) 3 (d / 2) 0 d h h 0 t
      (searchInner (d + 1) 0 (fun _ => 0) 2 2 0 d h h 0 (some t) (d, 1 <<< h - 1)).best
    have hres := chain3 _ _ _ _ ⟨le_refl _, fun _ => rfl⟩ m2 m3 hs
    rw [hres]
  · have m1 := searchInner_target_mono (d + 1) 0 (fun _ => 0) 1 1 0 d h h 0 t
      (d, 1 <<< h - 1)
    have m3 := searchInner_target_mono (d + 1) 0 (fun _ => 0) 3 (d / 2) 0 d h h 0 t
      (searchInner (d + 1) 0 (fun _ => 0) 1 1 0 d h h 0 (some t) (d, 1 <<< h - 1)).best
    have hres := chain3 _ _ _ _ m1 ⟨le_refl _, fun _ => rfl⟩ m3 hs
    rw [hres]
  · have m3 := searchInner_target_mono (d + 1) 0 (fun _ => 0) 3 (d / 2) 0 d h h 0 t
      (d, 1 <<< h - 1)
    have hres := chain3 _ _ _ _ ⟨le_refl _, fun _ => rfl⟩ ⟨le_refl _, fun _ => rfl⟩ m3 hs
    rw [hres]

theorem getD_append_lt (l l2 : List ℕ) (q : ℕ) (h : q < l.length) :
    (l ++ l2).getD q 0 = l.getD q 0 := by
  unfold List.getD
  rw [List.get?_append h]

theorem getD_set_le (l : List ℕ) (r j q : ℕ) (hj : j < l.getD r 0) :
    (l.set r j).getD q 0 ≤ l.getD q 0 := by
  by_cases hrq : r = q
  · subst hrq
    by_cases hr : r < l.length
    · unfold List.getD
      rw [List.get?_set_eq_of_lt j hr]
      unfold List.getD at hj
      simp only [Option.getD_some]
      omega
    · push_neg at hr
      rw [List.set_eq_of_length_le hr]
  · unfold List.getD
    rw [List.get?_set_ne j l hrq]

/-- The multi-target Finalize loop only grows the result table and only
lowers its entries: it merges new observations by minimum. -/
theorem finLoopMulti_mono (hand : ℕ) (diffs : ℕ → ℕ) (nI quads maxI : ℕ) (js : List ℕ) :
    ∀ bs : List ℕ,
      bs.length ≤ (finLoopMulti hand diffs nI quads maxI js bs).scores.length
      ∧ ∀ q < bs.length,
          (finLoopMulti hand diffs nI quads maxI js bs).scores.getD q 0 ≤ bs.getD q 0 := by
  induction js with
  | nil =>
    intro bs
    exact ⟨le_refl _, fun q _ => le_refl _⟩
  | cons j js ih =>
    intro bs
    simp only [finLoopMulti]
    by_cases hext : bs.length ≤ finQuads hand diffs nI j quads / 3
    · rw [if_pos hext]
      set bs1 := bs ++ List.replicate (finQuads hand diffs nI j quads / 3 + 1 - bs.length) maxI
        with hbs1
      have hlen1 : bs.length ≤ bs1.length := by
        rw [hbs1]
        simp
      have hget1 : ∀ q < bs.length, bs1.getD q 0 = bs.getD q 0 := by
        intro q hq
        rw [hbs1]
        exact getD_append_lt bs _ q hq
      by_cases hset : j < bs1.getD (finQuads hand diffs nI j quads / 3) 0
      · rw [if_pos hset]
        obtain ⟨ihl, ihg⟩ := ih (bs1.set (finQuads hand diffs nI j quads / 3) j)
        refine ⟨by simp at ihl ⊢; omega, fun q hq => ?_⟩
        calc (finLoopMulti hand diffs nI quads maxI js
              (bs1.set (finQuads hand diffs nI j quads / 3) j)).scores.getD q 0
            ≤ (bs1.set (finQuads hand diffs nI j quads / 3) j).getD q 0 :=
              ihg q (by simp; omega)
          _ ≤ bs1.getD q 0 := getD_set_le bs1 _ j q hset
          _ = bs.getD q 0 := hget1 q hq
      · rw [if_neg hset]
        obtain ⟨ihl, ihg⟩ := ih bs1
        refine ⟨hlen1.trans ihl, fun q hq => ?_⟩
        calc (finLoopMulti hand diffs nI quads maxI js bs1).scores.getD q 0
            ≤ bs1.getD q 0 := ihg q (by omega)
          _ = bs.getD q 0 := hget1 q hq
    · rw [if_neg hext]
      by_cases hset : j < bs.getD (finQuads hand diffs nI j quads / 3) 0
      · rw [if_pos hset]
        obtain ⟨ihl, ihg⟩ := ih (bs.set (finQuads hand diffs nI j quads / 3) j)
        refine ⟨by simp at ihl ⊢; omega, fun q hq => ?_⟩
        calc (finLoopMulti hand diffs nI quads maxI js
              (bs.set (finQuads hand diffs nI j quads / 3) j)).scores.getD q 0
            ≤ (bs.set (finQuads hand diffs nI j quads / 3) j).getD q 0 :=
              ihg q (by simp; omega)
          _ ≤ bs.getD q 0 := getD_set_le bs _ j q hset
      · rw [if_neg hset]
        exact ih bs

/-- The multi-target sweep only grows the shared result table and only
lowers its entries, whatever window it is run with: the three windowed
runs of an iteration merge into the one shared table by minimum. -/
theorem searchInnerMulti_scores_mono (fuel : ℕ) :
    ∀ (hand : ℕ) (diffs : ℕ → ℕ) (minDiff maxDiff nI maxIndex cih cta quads : ℕ)
      (bs : List ℕ),
      bs.length ≤ (searchInnerMulti fuel hand diffs minDiff maxDiff nI maxIndex cih cta
          quads bs).scores.length
      ∧ ∀ q < bs.length,
          (searchInnerMulti fuel hand diffs minDiff maxDiff nI maxIndex cih cta quads
            bs).scores.getD q 0 ≤ bs.getD q 0 := by
  induction fuel with
  | zero =>
    intro hand diffs minDiff maxDiff nI maxIndex cih cta quads bs
    exact ⟨le_refl _, fun q _ => le_refl _⟩
  | succ fuel ih =>
    intro hand diffs minDiff maxDiff nI maxIndex cih cta quads bs
    simp only [searchInnerMulti]
    by_cases hg1 : maxIndex < nI + cta ∨ cta = 0
    · rw [if_pos hg1]
      exact ⟨le_refl _, fun q _ => le_refl _⟩
    · rw [if_neg hg1]
      by_cases hc2 : (1 <<< ilog2 (ilog2 hand)) * 2 < nI
      · rw [if_pos hc2]
        exact ⟨le_refl _, fun q _ => le_refl _⟩
      · rw [if_neg hc2]
        by_cases hc3 : 1 < cta
        · rw [if_pos hc3]
          by_cases hc4 : (extendCalc hand nI maxDiff diffs quads).good = true
          · rw [if_pos hc4]
            have ih1 := ih (hand ||| 1 <<< nI) (extendCalc hand nI maxDiff diffs quads).diffs
              minDiff maxDiff (nI + 1) maxIndex cih (cta - 1)
              (extendCalc hand nI maxDiff diffs quads).quads bs
            by_cases hc6 : minDiff * 2 ≤ nI
            · rw [if_pos hc6]
              dsimp only
              have ih2 := ih hand diffs minDiff maxDiff (nI + 1) maxIndex cih cta quads
                (searchInnerMulti fuel (hand ||| 1 <<< nI)
                  (extendCalc hand nI maxDiff diffs quads).diffs minDiff maxDiff (nI + 1)
                  maxIndex cih (cta - 1) (extendCalc hand nI maxDiff diffs quads).quads
                  bs).scores
              refine ⟨ih1.1.trans ih2.1, fun q hq => ?_⟩
              calc _ ≤ _ := ih2.2 q (by have := ih1.1; omega)
                _ ≤ bs.getD q 0 := ih1.2 q hq
            · rw [if_neg hc6]
              exact ih1
          · rw [if_neg hc4]
            by_cases hc6 : minDiff * 2 ≤ nI
            · rw [if_pos hc6]
              dsimp only
              exact ih hand diffs minDiff maxDiff (nI + 1) maxIndex cih cta quads bs
            · rw [if_neg hc6]
              exact ⟨le_refl _, fun q _ => le_refl _⟩
        · rw [if_neg hc3]
          exact finLoopMulti_mono hand diffs nI quads maxIndex _ bs

theorem searchMultiCallsGo_fuel_inv :
    ∀ f1 : ℕ, ∀ f2 d h : ℕ, d < f1 → d < f2 →
      searchMultiCallsGo f1 d h = searchMultiCallsGo f2 d h := by
  intro f1
  induction f1 with
  | zero =>
    intro f2 d h h1 _
    exact absurd h1 (Nat.not_lt_zero d)
  | succ f1 ih =>
    intro f2 d h h1 h2
    match f2 with
    | 0 => exact absurd h2 (Nat.not_lt_zero d)
    | f2 + 1 =>
      simp only [searchMultiCallsGo]
      by_cases hc : 0 < d ∧ h ≤ d
      · rw [if_pos hc, if_pos hc, ih f2 (d / 2) h (by omega) (by omega)]
      · rw [if_neg hc, if_neg hc]

theorem searchMultiGo_fuel_inv :
    ∀ f1 : ℕ, ∀ f2 d h : ℕ, ∀ acc : List ℕ, d < f1 → d < f2 →
      searchMultiGo f1 d h acc = searchMultiGo f2 d h acc := by
  intro f1
  induction f1 with
  | zero =>
    intro f2 d h acc h1 _
    exact absurd h1 (Nat.not_lt_zero d)
  | succ f1 ih =>
    intro f2 d h acc h1 h2
    match f2 with
    | 0 => exact absurd h2 (Nat.not_lt_zero d)
    | f2 + 1 =>
      simp only [searchMultiGo]
      by_cases hc : 0 < d ∧ h ≤ d
      · rw [if_pos hc, if_pos hc, ih f2 (d / 2) h _ (by omega) (by omega)]
      · rw [if_neg hc, if_neg hc]

/-- One iteration of the window trace: when the deck still fits the
hand, the sweep runs the windows `(1,1)`, `(2,2)`, `(3, deckSize/2)` and
continues with the halved deck. -/
theorem searchMultiCalls_unfold_pos (d h : ℕ) (hd : 0 < d) (hh : h ≤ d) :
    searchMultiCalls d h = (1, 1) :: (2, 2) :: (3, d / 2) :: searchMultiCalls (d / 2) h := by
  show searchMultiCallsGo (d + 1) d h = _
  simp only [searchMultiCallsGo]
  rw [if_pos ⟨hd, hh⟩]
  rw [searchMultiCallsGo_fuel_inv d (d / 2 + 1) (d / 2) h (by omega) (by omega)]
  rfl

theorem searchMultiCalls_unfold_neg (d h : ℕ) (hd : d = 0 ∨ d < h) :
    searchMultiCalls d h = [] := by
  show searchMultiCallsGo (d + 1) d h = _
  simp only [searchMultiCallsGo]
  rw [if_neg (by omega)]

/-- One iteration of the sweep driver: when the deck still fits the
hand, three windowed `search_inner_multi` runs feed the one shared
result table in sequence, and the driver recurses on the halved deck. -/
theorem searchMultiGo_unfold_pos (d h : ℕ) (hd : 0 < d) (hh : h ≤ d) (acc : List ℕ) :
    searchMultiGo (d + 1) d h acc
      = searchMultiGo (d / 2 + 1) (d / 2) h
          ((searchInnerMulti (d + 1) 0 (fun _ => 0) 3 (d / 2) 0 d 0 h 0
            ((searchInnerMulti (d + 1) 0 (fun _ => 0) 2 2 0 d 0 h 0
              ((searchInnerMulti (d + 1) 0 (fun _ => 0) 1 1 0 d 0 h 0 acc).scores)).scores)).scores) := by
  conv_lhs => rw [searchMultiGo]
  rw [if_pos ⟨hd, hh⟩]
  exact searchMultiGo_fuel_inv d (d / 2 + 1) (d / 2) h _ (by omega) (by omega)

/-- In `search_inner`, an Extend frame recurses into the skip branch
exactly when the include branch did not raise the stop signal and the
candidate index has reached the forced-inclusion threshold
`min_diff_count * 2`. -/
theorem searchInner_ext_iff (fuel : ℕ) :
    ∀ (hand : ℕ) (diffs : ℕ → ℕ) (minDiff maxDiff nI maxIndex cih cta quads : ℕ)
      (target : Option ℕ) (best : ℕ × ℕ),
      ∀ e ∈ (searchInner fuel hand diffs minDiff maxDiff nI maxIndex cih cta quads
          target best).evs,
        ∀ n m ic cc sk, e = Ev.ext n m ic cc sk → sk = (cc && decide (m * 2 ≤ n)) := by
  induction fuel with
  | zero =>
    intro hand diffs minDiff maxDiff nI maxIndex cih cta quads target best e he
    simp [searchInner] at he
  | succ fuel ih =>
    intro hand diffs minDiff maxDiff nI maxIndex cih cta quads target best e he
    simp only [searchInner] at he
    by_cases hg1 : maxIndex < nI + cta ∨ cta = 0
    · rw [if_pos hg1] at he
      simp at he
    · rw [if_neg hg1] at he
      by_cases hc2 : (1 <<< ilog2 (ilog2 hand)) * 2 < nI
      · rw [if_pos hc2] at he
        simp at he
      · rw [if_neg hc2] at he
        by_cases hc3 : 1 < cta
        · rw [if_pos hc3] at he
          by_cases hc4 : (extendCalc hand nI maxDiff diffs quads).good = true
              ∧ ∀ t ∈ target, (extendCalc hand nI maxDiff diffs quads).quads ≤ t * 3
          · rw [if_pos hc4] at he
            by_cases hc5 : (searchInner fuel (hand ||| 1 <<< nI)
                (extendCalc hand nI maxDiff diffs quads).diffs minDiff maxDiff (nI + 1)
                maxIndex cih (cta - 1) (extendCalc hand nI maxDiff diffs quads).quads
                target best).cont = false
            · rw [if_pos hc5] at he
              simp only [List.mem_cons] at he
              rcases he with rfl | rfl | he2
              · intro n m ic cc sk hh
                injection hh with h1 h2 h3 h4 h5
                subst h4
                subst h5
                simp
              · intro n m ic cc sk hh
                simp at hh
              · exact ih _ _ _ _ _ _ _ _ _ _ _ e he2
            · rw [if_neg hc5] at he
              by_cases hc6 : minDiff * 2 ≤ nI
              · rw [if_pos hc6] at he
                simp only [List.mem_cons, List.mem_append] at he
                rcases he with rfl | (rfl | her1) | (rfl | her2)
                · intro n m ic cc sk hh
                  injection hh with h1 h2 h3 h4 h5
                  subst h1
                  subst h2
                  subst h4
                  subst h5
                  simp [hc6]
                · intro n m ic cc sk hh
                  simp at hh
                · exact ih _ _ _ _ _ _ _ _ _ _ _ e her1
                · intro n m ic cc sk hh
                  simp at hh
                · exact ih _ _ _ _ _ _ _ _ _ _ _ e her2
              · rw [if_neg hc6] at he
                simp only [List.mem_cons] at he
                rcases he with rfl | rfl | he2
                · intro n m ic cc sk hh
                  injection hh with h1 h2 h3 h4 h5
                  subst h1
                  subst h2
                  subst h4
                  subst h5
                  simp [hc6]
                · intro n m ic cc sk hh
                  simp at hh
                · exact ih _ _ _ _ _ _ _ _ _ _ _ e he2
          · rw [if_neg hc4] at he
            by_cases hc6 : minDiff * 2 ≤ nI
            · rw [if_pos hc6] at he
              simp only [List.mem_cons] at he
              rcases he with rfl | rfl | he2
              · intro n m ic cc sk hh
                injection hh with h1 h2 h3 h4 h5
                subst h1
                subst h2
                subst h4
                subst h5
                simp [hc6]
              · intro n m ic cc sk hh
                simp at hh
              · exact ih _ _ _ _ _ _ _ _ _ _ _ e he2
            · rw [if_neg hc6] at he
              simp only [List.mem_singleton] at he
              subst he
              intro n m ic cc sk hh
              injection hh with h1 h2 h3 h4 h5
              subst h1
              subst h2
              subst h4
              subst h5
              simp [hc6]
        · rw [if_neg hc3] at he
          intro n m ic cc sk hh
          subst hh
          exfalso
          revert he
          generalize List.range' nI (min maxIndex ((1 <<< ilog2 (ilog2 hand)) * 2 + 1) - nI) = js
          intro he
          induction js generalizing best with
          | nil => simp [finLoop] at he
          | cons j js ihj =>
            match target with
            | some t =>
              simp [finLoop] at he
            | none =>
              simp only [finLoop, List.mem_cons] at he
              rcases he with hh2 | he2
              · simp at hh2
              · exact ihj _ he2

/-- In `search_inner_multi`, an Extend frame recurses into the skip
branch exactly when the candidate index has reached the
forced-inclusion threshold `min_diff_count * 2`. -/
theorem searchInnerMulti_ext_iff (fuel : ℕ) :
    ∀ (hand : ℕ) (diffs : ℕ → ℕ) (minDiff maxDiff nI maxIndex cih cta quads : ℕ)
      (bs : List ℕ),
      ∀ e ∈ (searchInnerMulti fuel hand diffs minDiff maxDiff nI maxIndex cih cta quads
          bs).evs,
        ∀ n m ic cc sk, e = Ev.ext n m ic cc sk → sk = decide (m * 2 ≤ n) := by
  induction fuel with
  | zero =>
    intro hand diffs minDiff maxDiff nI maxIndex cih cta quads bs e he
    simp [searchInnerMulti] at he
  | succ fuel ih =>
    intro hand diffs minDiff maxDiff nI maxIndex cih cta quads bs e he
    simp only [searchInnerMulti] at he
    by_cases hg1 : maxIndex < nI + cta ∨ cta = 0
    · rw [if_pos hg1] at he
      simp at he
    · rw [if_neg hg1] at he
      by_cases hc2 : (1 <<< ilog2 (ilog2 hand)) * 2 < nI
      · rw [if_pos hc2] at he
        simp at he
      · rw [if_neg hc2] at he
        by_cases hc3 : 1 < cta
        · rw [if_pos hc3] at he
          by_cases hc4 : (extendCalc hand nI maxDiff diffs quads).good = true
          · rw [if_pos hc4] at he
            by_cases hc6 : minDiff * 2 ≤ nI
            · rw [if_pos hc6] at he
              simp only [List.mem_cons, List.mem_append] at he
              rcases he with rfl | (rfl | her1) | (rfl | her2)
              · intro n m ic cc sk hh
                injection hh with h1 h2 h3 h4 h5
                subst h1
                subst h2
                subst h5
                simp [hc6]
              · intro n m ic cc sk hh
                simp at hh
              · exact ih _ _ _ _ _ _ _ _ _ _ e her1
              · intro n m ic cc sk hh
                simp at hh
              · exact ih _ _ _ _ _ _ _ _ _ _ e her2
            · rw [if_neg hc6] at he
              simp only [List.mem_cons] at he
              rcases he with rfl | rfl | he2
              · intro n m ic cc sk hh
                injection hh with h1 h2 h3 h4 h5
                subst h1
                subst h2
                subst h5
                simp [hc6]
              · intro n m ic cc sk hh
                simp at hh
              · exact ih _ _ _ _ _ _ _ _ _ _ e he2
          · rw [if_neg hc4] at he
            by_cases hc6 : minDiff * 2 ≤ nI
            · rw [if_pos hc6] at he
              simp only [List.mem_cons, List.mem_append, List.not_mem_nil, false_or] at he
              rcases he with rfl | rfl | he2
              · intro n m ic cc sk hh
                injection hh with h1 h2 h3 h4 h5
                subst h1
                subst h2
                subst h5
                simp [hc6]
              · intro n m ic cc sk hh
                simp at hh
              · exact ih _ _ _ _ _ _ _ _ _ _ e he2
            · rw [if_neg hc6] at he
              simp only [List.mem_cons, List.not_mem_nil, or_false] at he
              subst he
              intro n m ic cc sk hh
              injection hh with h1 h2 h3 h4 h5
              subst h1
              subst h2
              subst h5
              simp [hc6]
        · rw [if_neg hc3] at he
          intro n m ic cc sk hh
          subst hh
          exfalso
          revert he
          generalize List.range' nI (min maxIndex ((1 <<< ilog2 (ilog2 hand)) * 2 + 1) - nI) = js
          intro he
          induction js generalizing bs with
          | nil => simp [finLoopMulti] at he
          | cons j js ihj =>
            simp only [finLoopMulti, List.mem_cons] at he
            rcases he with hh2 | he2
            · simp at hh2
            · exact ihj _ he2

/-- The skip branch of `search_inner` receives the hand, the difference
table, the raw count and the cards-to-add budget of the current frame
unchanged, with only the candidate index advanced by one (the two cases
distinguish whether the include branch was entered first). -/
theorem searchInner_skip_unchanged (fuel : ℕ) (hand : ℕ) (diffs : ℕ → ℕ)
    (minDiff maxDiff nI maxIndex cih cta quads : ℕ) (target : Option ℕ) (best : ℕ × ℕ)
    (hg1 : nI + cta ≤ maxIndex) (hg2 : cta ≠ 0)
    (hmu : nI ≤ (1 <<< ilog2 (ilog2 hand)) * 2) (hcta : 1 < cta)
    (hth : minDiff * 2 ≤ nI) :
    ((¬((extendCalc hand nI maxDiff diffs quads).good = true
        ∧ ∀ t ∈ target, (extendCalc hand nI maxDiff diffs quads).quads ≤ t * 3)) →
      (searchInner (fuel + 1) hand diffs minDiff maxDiff nI maxIndex cih cta quads
          target best).best
        = (searchInner fuel hand diffs minDiff maxDiff (nI + 1) maxIndex cih cta quads
            target best).best
      ∧ (searchInner (fuel + 1) hand diffs minDiff maxDiff nI maxIndex cih cta quads
          target best).cont
        = (searchInner fuel hand diffs minDiff maxDiff (nI + 1) maxIndex cih cta quads
            target best).cont)
    ∧ (((extendCalc hand nI maxDiff diffs quads).good = true
        ∧ ∀ t ∈ target, (extendCalc hand nI maxDiff diffs quads).quads ≤ t * 3) →
      (searchInner fuel (hand ||| 1 <<< nI) (extendCalc hand nI maxDiff diffs quads).diffs
          minDiff maxDiff (nI + 1) maxIndex cih (cta - 1)
          (extendCalc hand nI maxDiff diffs quads).quads target best).cont = true →
      (searchInner (fuel + 1) hand diffs minDiff maxDiff nI maxIndex cih cta quads
          target best).best
        = (searchInner fuel hand diffs minDiff maxDiff (nI + 1) maxIndex cih cta quads
            target (searchInner fuel (hand ||| 1 <<< nI)
              (extendCalc hand nI maxDiff diffs quads).diffs minDiff maxDiff (nI + 1)
              maxIndex cih (cta - 1) (extendCalc hand nI maxDiff diffs quads).quads
              target best).best).best) := by
  constructor
  · intro hc4
    simp only [searchInner]
    rw [if_neg (by omega), if_neg (by omega), if_pos hcta, if_neg hc4, if_pos hth]
    exact ⟨rfl, rfl⟩
  · intro hc4 hcont
    simp only [searchInner]
    rw [if_neg (by omega), if_neg (by omega), if_pos hcta, if_pos hc4,
      if_neg (by rw [hcont]; simp), if_pos hth]

/-- The skip branch of `search_inner_multi` receives the hand, the
difference table, the raw count and the cards-to-add budget of the
current frame unchanged, with only the candidate index advanced by
one. -/
theorem searchInnerMulti_skip_unchanged (fuel : ℕ) (hand : ℕ) (diffs : ℕ → ℕ)
    (minDiff maxDiff nI maxIndex cih cta quads : ℕ) (bs : List ℕ)
    (hg1 : nI + cta ≤ maxIndex) (hg2 : cta ≠ 0)
    (hmu : nI ≤ (1 <<< ilog2 (ilog2 hand)) * 2) (hcta : 1 < cta)
    (hth : minDiff * 2 ≤ nI) :
    (searchInnerMulti (fuel + 1) hand diffs minDiff maxDiff nI maxIndex cih cta quads
        bs).scores
      = (searchInnerMulti fuel hand diffs minDiff maxDiff (nI + 1) maxIndex cih cta quads
          (if (extendCalc hand nI maxDiff diffs quads).good = true then
            (searchInnerMulti fuel (hand ||| 1 <<< nI)
              (extendCalc hand nI maxDiff diffs quads).diffs minDiff maxDiff (nI + 1)
              maxIndex cih (cta - 1) (extendCalc hand nI maxDiff diffs quads).quads
              bs).scores
          else bs)).scores := by
  simp only [searchInnerMulti]
  rw [if_neg (by omega), if_neg (by omega), if_pos hcta]
  by_cases hc4 : (extendCalc hand nI maxDiff diffs quads).good = true
  · rw [if_pos hc4, if_pos hth, if_pos hc4]
  · rw [if_neg hc4, if_pos hth, if_neg hc4]

/-- Computable reformulation of the quad count used for fast
enumeration: on 4-element subsets the pairing condition is equivalent to
the XOR of all four elements being 0. -/
theorem setQuads_eq_xorFilter (s : Finset ℕ) :
    setQuads s = ((s.powersetCard 4).filter (fun q => xorSum q = 0)).card := by
  unfold setQuads
  congr 1
  apply Finset.filter_congr
  intro q hq
  exact isQuadSet_iff (Finset.mem_powersetCard.mp hq).2

/-! ## Claim theorems -/

/-- C1: for every finalized hand the engine evaluates (a partial hand
plus one last candidate `j`), the quad count it reports (the accumulated
raw count divided by 3) equals the brute-force number of quadruples of
four distinct elements of that hand that split into two unordered pairs
with equal XOR. -/
theorem claim_C1_finalize_quad_count (fuel d h minD maxD : ℕ) (t : Option ℕ)
    (best : ℕ × ℕ) (hd : d ≤ 128) :
    ∀ e ∈ (searchInner fuel 0 (fun _ => 0) minD maxD 0 d h h 0 t best).evs,
      ∀ hh j q2, e = Ev.fin hh j q2 →
        q2 / 3 = setQuads (handSet (hh ||| 1 <<< j)) := by
  intro e he hh j q2 hefin
  have hok := searchInner_evOK fuel 0 (fun _ => 0) minD maxD 0 d h h 0 t best hd
    FrameInv_init (fun _ => Nat.zero_le maxD) e he
  subst hefin
  obtain ⟨heq, _, _⟩ := hok
  rw [heq, Nat.mul_div_cancel_left _ (by norm_num : (0:ℕ) < 3)]

theorem claim_C1_finalize_quad_count_witness :
    (0 : ℕ) / 3 = setQuads (handSet (0 ||| 1 <<< 0)) :=
  claim_C1_finalize_quad_count 5 4 1 1 1 none (0, 1) (by norm_num)
    (Ev.fin 0 0 0) (by decide) 0 0 0 rfl

/-- C5: at every Finalize step, for every candidate last card `j`
considered, the raw accumulated quad count (the carried count plus the
contributions of `j` against the current hand) is exactly divisible by
3, in both `search_inner` and `search_inner_multi`. -/
theorem claim_C5_raw_count_divisible (fuelA dA hA minA maxA : ℕ) (t : Option ℕ)
    (best : ℕ × ℕ) (fuelB dB hB minB maxB : ℕ) (bs : List ℕ)
    (hdA : dA ≤ 128) (hdB : dB ≤ 128) :
    (∀ e ∈ (searchInner fuelA 0 (fun _ => 0) minA maxA 0 dA hA hA 0 t best).evs,
      ∀ hh j q2, e = Ev.fin hh j q2 → 3 ∣ q2)
    ∧ (∀ e ∈ (searchInnerMulti fuelB 0 (fun _ => 0) minB maxB 0 dB hB hB 0 bs).evs,
      ∀ hh j q2, e = Ev.fin hh j q2 → 3 ∣ q2) := by
  constructor
  · intro e he hh j q2 hefin
    have hok := searchInner_evOK fuelA 0 (fun _ => 0) minA maxA 0 dA hA hA 0 t best hdA
      FrameInv_init (fun _ => Nat.zero_le maxA) e he
    subst hefin
    exact Dvd.intro _ hok.1.symm
  · intro e he hh j q2 hefin
    have hok := searchInnerMulti_evOK fuelB 0 (fun _ => 0) minB maxB 0 dB hB hB 0 bs hdB
      FrameInv_init (fun _ => Nat.zero_le maxB) e he
    subst hefin
    exact Dvd.intro _ hok.1.symm

theorem claim_C5_raw_count_divisible_witness : (3 : ℕ) ∣ 3 ∧ (3 : ℕ) ∣ 3 :=
  ⟨(claim_C5_raw_count_divisible 5 4 4 3 2 none (0, 15) 5 4 4 1 1 []
      (by norm_num) (by norm_num)).1 (Ev.fin 7 3 3) (by decide) 7 3 3 rfl,
    (claim_C5_raw_count_divisible 5 4 4 3 2 none (0, 15) 5 4 4 1 1 []
      (by norm_num) (by norm_num)).2 (Ev.fin 7 3 3) (by decide) 7 3 3 rfl⟩

/-- C4: for every partial hand reached by the search (every recursive
call recorded), the sum of all 128 difference-table entries equals
`k * (k - 1) / 2` where `k` is the number of cards inserted so far; the
initial empty table sums to 0; and every break-free insertion of a new
card increments exactly one entry for each card already in the hand and
leaves all other entries unchanged. -/
theorem claim_C4_table_sum (fuel d h minD maxD : ℕ) (t : Option ℕ) (best : ℕ × ℕ)
    (hd : d ≤ 128) :
    (tblOf (fun _ => 0)).sum = 0
    ∧ (∀ e ∈ (searchInner fuel 0 (fun _ => 0) minD maxD 0 d h h 0 t best).evs,
        ∀ sk hh tbl nI cta q, e = Ev.call sk hh tbl nI cta q →
          tbl.sum = (handSet hh).card * ((handSet hh).card - 1) / 2)
    ∧ (∀ (hand nI maxDiff2 : ℕ) (diffs : ℕ → ℕ) (quads : ℕ),
        (extendCalc hand nI maxDiff2 diffs quads).good = true →
          (∀ i, i < nI → hand.testBit i = true →
            (extendCalc hand nI maxDiff2 diffs quads).diffs (i ^^^ nI)
              = diffs (i ^^^ nI) + 1)
          ∧ (∀ x, ¬(x ^^^ nI < nI ∧ hand.testBit (x ^^^ nI) = true) →
              (extendCalc hand nI maxDiff2 diffs quads).diffs x = diffs x)) := by
  refine ⟨?_, ?_, ?_⟩
  · unfold tblOf
    induction (List.range 128) with
    | nil => rfl
    | cons a as ih => simp [ih]
  · intro e he sk hh tbl nI cta q hecall
    have hok := searchInner_evOK fuel 0 (fun _ => 0) minD maxD 0 d h h 0 t best hd
      FrameInv_init (fun _ => Nat.zero_le maxD) e he
    subst hecall
    obtain ⟨htbl, _, _, _, _⟩ := hok
    rw [htbl, list_range_map_sum,
      sum_pairCnt_range (handSet hh) (fun x hx => (mem_handSet.mp hx).1),
      Nat.choose_two_right]
  · intro hand nI maxDiff2 diffs quads hg
    obtain ⟨hchar_d, _⟩ := extLoop_good_char hand nI maxDiff2 (List.range nI)
      (List.nodup_range nI) diffs quads hg
    constructor
    · intro i hi hbit
      have := hchar_d (i ^^^ nI)
      rw [Nat.xor_cancel_right] at this
      rw [show (extendCalc hand nI maxDiff2 diffs quads).diffs
          = (extLoop hand nI maxDiff2 (List.range nI) diffs quads).diffs from rfl, this,
        if_pos ⟨List.mem_range.mpr hi, hbit⟩]
    · intro x hx
      have := hchar_d x
      rw [show (extendCalc hand nI maxDiff2 diffs quads).diffs
          = (extLoop hand nI maxDiff2 (List.range nI) diffs quads).diffs from rfl, this,
        if_neg (by rw [List.mem_range]; exact hx)]
      omega

theorem claim_C4_table_sum_witness :
    ((List.range 128).map (fun _ => 0)).sum
      = (handSet 1).card * ((handSet 1).card - 1) / 2 :=
  (claim_C4_table_sum 5 4 2 3 2 none (0, 3) (by norm_num)).2.1
    (Ev.call false 1 ((List.range 128).map (fun _ => 0)) 1 1 0) (by decide)
    false 1 ((List.range 128).map (fun _ => 0)) 1 1 0 rfl

set_option maxRecDepth 8192 in
/-- C8: under the preconditions `deckSize ≤ 128` and
`maxDiffCount ≤ 64` (every window the drivers use satisfies both, since
`cards_in_deck / 2 ≤ 64`), no search arithmetic can overflow its machine
type: recorded difference-table entries stay at most 64, every entry
during the insertion loop stays at most `maxDiffCount + 1 ≤ 65 < 256`
(so the `u8` table cannot wrap), every raw quad count is at most
`3 * C(128, 4) < 2 ^ 64` (so the `u64` accumulator cannot wrap), and
every shift index stays below 128 (candidates `j < 128`, hands below
`2 ^ 128`).  The trace bounds are established for both engines,
`search_inner` and `search_inner_multi`. -/
theorem claim_C8_no_overflow (fuel d h minD maxD : ℕ) (t : Option ℕ) (best : ℕ × ℕ)
    (fuelM dM hM minDM maxDM : ℕ) (bs : List ℕ)
    (hd : d ≤ 128) (hmd : maxD ≤ 64) (hdM : dM ≤ 128) (hmdM : maxDM ≤ 64) :
    (∀ e ∈ (searchInner fuel 0 (fun _ => 0) minD maxD 0 d h h 0 t best).evs,
      (∀ sk hh tbl nI cta q, e = Ev.call sk hh tbl nI cta q →
        (∀ v ∈ tbl, v ≤ 64) ∧ q ≤ 3 * Nat.choose 128 4 ∧ nI ≤ 128 ∧ hh < 2 ^ 128)
      ∧ (∀ hh j q2, e = Ev.fin hh j q2 → q2 ≤ 3 * Nat.choose 128 4 ∧ j < 128))
    ∧ (∀ e ∈ (searchInnerMulti fuelM 0 (fun _ => 0) minDM maxDM 0 dM hM hM 0 bs).evs,
      (∀ sk hh tbl nI cta q, e = Ev.call sk hh tbl nI cta q →
        (∀ v ∈ tbl, v ≤ 64) ∧ q ≤ 3 * Nat.choose 128 4 ∧ nI ≤ 128 ∧ hh < 2 ^ 128)
      ∧ (∀ hh j q2, e = Ev.fin hh j q2 → q2 ≤ 3 * Nat.choose 128 4 ∧ j < 128))
    ∧ (∀ (hand2 nI2 maxD2 : ℕ) (L : List ℕ) (diffs2 : ℕ → ℕ) (q2 : ℕ),
        (∀ x, diffs2 x ≤ maxD2) →
        ∀ x, (extLoop hand2 nI2 maxD2 L diffs2 q2).diffs x ≤ maxD2 + 1)
    ∧ 64 + 1 < 256 ∧ 3 * Nat.choose 128 4 < 2 ^ 64 := by
  have hquad : ∀ hh : ℕ, 3 * setQuads (handSet hh) ≤ 3 * Nat.choose 128 4 := by
    intro hh
    have h1 := setQuads_le_choose (handSet hh)
    have h2 := Nat.choose_le_choose 4 (handSet_card_le hh)
    omega
  have hpack : ∀ (maxDiff : ℕ), maxDiff ≤ 64 → ∀ e : Ev, EvOK maxDiff e →
      (∀ sk hh tbl nI cta q, e = Ev.call sk hh tbl nI cta q →
        (∀ v ∈ tbl, v ≤ 64) ∧ q ≤ 3 * Nat.choose 128 4 ∧ nI ≤ 128 ∧ hh < 2 ^ 128)
      ∧ (∀ hh j q2, e = Ev.fin hh j q2 → q2 ≤ 3 * Nat.choose 128 4 ∧ j < 128) := by
    intro maxDiff hmaxDiff e hok
    constructor
    · intro sk hh tbl nI cta q hecall
      subst hecall
      obtain ⟨htbl, hq, hlt, hn, hb⟩ := hok
      refine ⟨fun v hv => (hb v hv).trans hmaxDiff, ?_, hn, ?_⟩
      · rw [hq]
        exact hquad hh
      · exact lt_of_lt_of_le hlt (Nat.pow_le_pow_right (by norm_num) hn)
    · intro hh j q2 hefin
      subst hefin
      obtain ⟨hq2, hj, _⟩ := hok
      refine ⟨?_, hj⟩
      rw [hq2]
      exact hquad _
  refine ⟨?_, ?_, ?_, by norm_num, by decide⟩
  · intro e he
    exact hpack maxD hmd e (searchInner_evOK fuel 0 (fun _ => 0) minD maxD 0 d h h 0 t
      best hd FrameInv_init (fun _ => Nat.zero_le maxD) e he)
  · intro e he
    exact hpack maxDM hmdM e (searchInnerMulti_evOK fuelM 0 (fun _ => 0) minDM maxDM 0 dM
      hM hM 0 bs hdM FrameInv_init (fun _ => Nat.zero_le maxDM) e he)
  · intro hand2 nI2 maxD2 L diffs2 q2 hb x
    exact (extLoop_bound hand2 nI2 maxD2 L diffs2 q2 hb).1 x

theorem claim_C8_no_overflow_witness :
    ((3 : ℕ) ≤ 3 * Nat.choose 128 4 ∧ (3 : ℕ) < 128)
    ∧ ((3 : ℕ) ≤ 3 * Nat.choose 128 4 ∧ (3 : ℕ) < 128) :=
  ⟨((claim_C8_no_overflow 5 4 4 3 2 none (0, 15) 5 4 4 1 1 [] (by norm_num) (by norm_num)
      (by norm_num) (by norm_num)).1 (Ev.fin 7 3 3) (by decide)).2 7 3 3 rfl,
    ((claim_C8_no_overflow 5 4 4 3 2 none (0, 15) 5 4 4 1 1 [] (by norm_num) (by norm_num)
      (by norm_num) (by norm_num)).2.1 (Ev.fin 7 3 3) (by decide)).2 7 3 3 rfl⟩

/-- C2 (failing run): at a consistent exact-target Finalize frame (hand
`{0,1,2}`, its true difference table, target 0, deck 8), `search_inner`
returns the stop signal `None` after examining only the first candidate
`j = 3` (recorded as the single trace event), leaving the accumulator
untouched, even though the unexamined candidate `j = 4` completes a
0-quad hand matching the target and would have improved the best
max-card from the sentinel 8 to 4.  This contradicts the function's own
documentation, which promises `None` only once the target has been
achieved. -/
theorem claim_C2_stop_without_target :
    (searchInner 9 7 (fun d => if d = 1 ∨ d = 2 ∨ d = 3 then 1 else 0)
        1 1 3 8 4 1 0 (some 0) (8, 31)).cont = false
    ∧ (searchInner 9 7 (fun d => if d = 1 ∨ d = 2 ∨ d = 3 then 1 else 0)
        1 1 3 8 4 1 0 (some 0) (8, 31)).best = (8, 31)
    ∧ (searchInner 9 7 (fun d => if d = 1 ∨ d = 2 ∨ d = 3 then 1 else 0)
        1 1 3 8 4 1 0 (some 0) (8, 31)).evs = [Ev.fin 7 3 3]
    ∧ finQuads 7 (fun d => if d = 1 ∨ d = 2 ∨ d = 3 then 1 else 0) 3 3 0 / 3 = 1
    ∧ finQuads 7 (fun d => if d = 1 ∨ d = 2 ∨ d = 3 then 1 else 0) 3 4 0 / 3 = 0
    ∧ setQuads (handSet (7 ||| 1 <<< 4)) = 0
    ∧ (4 : ℕ) < 8
    ∧ tblOf (fun d => if d = 1 ∨ d = 2 ∨ d = 3 then 1 else 0)
        = tblOf (fun d => pairCnt (handSet 7) d) := by
  refine ⟨by decide, by decide, by decide, by decide, by decide, by decide,
    by norm_num, by decide⟩

/-- C3 (counterexample): the windows actually used by `search_multi` for
deck size 8 and hand size 4 are not the windows the claim asserts — the
third window of each iteration is `[3, deckSize/2]`, not
`[3, handSize/2]`. -/
theorem claim_C3_window_counterexample : searchMultiCalls 8 4 ≠ claimedCalls 8 4 := by
  decide

/-- C3 (amended): each iteration of the multi-target sweep runs the
recursive traversal exactly three times, with the windows `[1,1]`,
`[2,2]` and `[3, d/2]` where `d` is the current (possibly halved) deck
size; the three runs feed one shared result table in sequence, each run
only growing the table and lowering its entries (a merge by minimum);
and the outer loop halves the deck size while the deck is nonempty and
still fits the hand. -/
theorem claim_C3_sweep_windows :
    (∀ d h, 0 < d → h ≤ d →
      searchMultiCalls d h = (1, 1) :: (2, 2) :: (3, d / 2) :: searchMultiCalls (d / 2) h)
    ∧ (∀ d h, d = 0 ∨ d < h → searchMultiCalls d h = [])
    ∧ (∀ d h, searchMulti d h = searchMultiGo (d + 1) d h [])
    ∧ (∀ d h acc, 0 < d → h ≤ d →
        searchMultiGo (d + 1) d h acc
          = searchMultiGo (d / 2 + 1) (d / 2) h
              ((searchInnerMulti (d + 1) 0 (fun _ => 0) 3 (d / 2) 0 d 0 h 0
                ((searchInnerMulti (d + 1) 0 (fun _ => 0) 2 2 0 d 0 h 0
                  ((searchInnerMulti (d + 1) 0 (fun _ => 0) 1 1 0 d 0 h 0
                    acc).scores)).scores)).scores))
    ∧ (∀ (fuel hand : ℕ) (diffs : ℕ → ℕ) (minDiff maxDiff nI maxIndex cih cta quads : ℕ)
        (bs : List ℕ),
        bs.length ≤ (searchInnerMulti fuel hand diffs minDiff maxDiff nI maxIndex cih cta
            quads bs).scores.length
        ∧ ∀ q < bs.length,
            (searchInnerMulti fuel hand diffs minDiff maxDiff nI maxIndex cih cta quads
              bs).scores.getD q 0 ≤ bs.getD q 0) := by
  refine ⟨searchMultiCalls_unfold_pos, searchMultiCalls_unfold_neg, fun d h => rfl,
    fun d h acc hd hh => searchMultiGo_unfold_pos d h hd hh acc, ?_⟩
  intro fuel hand diffs minDiff maxDiff nI maxIndex cih cta quads bs
  exact searchInnerMulti_scores_mono fuel hand diffs minDiff maxDiff nI maxIndex cih cta
    quads bs

theorem claim_C3_sweep_windows_witness :
    searchMultiCalls 8 4 = (1, 1) :: (2, 2) :: (3, 4) :: searchMultiCalls 4 4 :=
  claim_C3_sweep_windows.1 8 4 (by norm_num) (by norm_num)

/-- C6 (counterexample): in exact-target mode, an Extend frame of
`search_inner` whose candidate index has reached the forced-inclusion
threshold `min_diff_count * 2` can nevertheless fail to recurse into the
skip branch, because the include branch raised the early-stop signal
first: the trace of this frame (hand `{0,1}`, next index 2, threshold
2) records the threshold as met but the skip branch as not entered. -/
theorem claim_C6_skip_counterexample :
    ((searchInner 7 3 (fun d => if d = 1 then 1 else 0) 1 2 2 6 4 2 0 (some 0)
      (6, 15)).evs.any fun e => match e with
        | Ev.ext n m _ _ sk => decide (m * 2 ≤ n) && !sk
        | _ => false) = true := by
  decide

/-- C6 (amended): in the Extend state, `search_inner` recurses into the
skip branch exactly when the candidate index has reached
`min_diff_count * 2` and the include branch did not raise the stop
signal; `search_inner_multi` recurses into the skip branch exactly when
the candidate index has reached `min_diff_count * 2`; and in both
functions the skip call receives the hand, difference table, raw count
and cards-to-add budget unchanged, with only the candidate index
advanced by one.  For `search_inner` the unchanged-skip-arguments fact
is stated in both Extend configurations: when the include branch is not
entered, and when the include branch is entered first and does not
raise the stop signal (the skip call then starts from the include
result's accumulator). -/
theorem claim_C6_skip_exactly_when :
    (∀ (fuel hand : ℕ) (diffs : ℕ → ℕ) (minDiff maxDiff nI maxIndex cih cta quads : ℕ)
      (target : Option ℕ) (best : ℕ × ℕ),
      ∀ e ∈ (searchInner fuel hand diffs minDiff maxDiff nI maxIndex cih cta quads
          target best).evs,
        ∀ n m ic cc sk, e = Ev.ext n m ic cc sk → sk = (cc && decide (m * 2 ≤ n)))
    ∧ (∀ (fuel hand : ℕ) (diffs : ℕ → ℕ) (minDiff maxDiff nI maxIndex cih cta quads : ℕ)
      (bs : List ℕ),
      ∀ e ∈ (searchInnerMulti fuel hand diffs minDiff maxDiff nI maxIndex cih cta quads
          bs).evs,
        ∀ n m ic cc sk, e = Ev.ext n m ic cc sk → sk = decide (m * 2 ≤ n))
    ∧ (∀ (fuel hand : ℕ) (diffs : ℕ → ℕ)
        (minDiff maxDiff nI maxIndex cih cta quads : ℕ) (target : Option ℕ)
        (best : ℕ × ℕ),
        nI + cta ≤ maxIndex → cta ≠ 0 → nI ≤ (1 <<< ilog2 (ilog2 hand)) * 2 →
        1 < cta → minDiff * 2 ≤ nI →
        (¬((extendCalc hand nI maxDiff diffs quads).good = true
            ∧ ∀ t ∈ target, (extendCalc hand nI maxDiff diffs quads).quads ≤ t * 3) →
          (searchInner (fuel + 1) hand diffs minDiff maxDiff nI maxIndex cih cta quads
              target best).best
            = (searchInner fuel hand diffs minDiff maxDiff (nI + 1) maxIndex cih cta
                quads target best).best))
    ∧ (∀ (fuel hand : ℕ) (diffs : ℕ → ℕ)
        (minDiff maxDiff nI maxIndex cih cta quads : ℕ) (target : Option ℕ)
        (best : ℕ × ℕ),
        nI + cta ≤ maxIndex → cta ≠ 0 → nI ≤ (1 <<< ilog2 (ilog2 hand)) * 2 →
        1 < cta → minDiff * 2 ≤ nI →
        ((extendCalc hand nI maxDiff diffs quads).good = true
            ∧ ∀ t ∈ target, (extendCalc hand nI maxDiff diffs quads).quads ≤ t * 3) →
        (searchInner fuel (hand ||| 1 <<< nI) (extendCalc hand nI maxDiff diffs quads).diffs
            minDiff maxDiff (nI + 1) maxIndex cih (cta - 1)
            (extendCalc hand nI maxDiff diffs quads).quads target best).cont = true →
        (searchInner (fuel + 1) hand diffs minDiff maxDiff nI maxIndex cih cta quads
            target best).best
          = (searchInner fuel hand diffs minDiff maxDiff (nI + 1) maxIndex cih cta quads
              target (searchInner fuel (hand ||| 1 <<< nI)
                (extendCalc hand nI maxDiff diffs quads).diffs minDiff maxDiff (nI + 1)
                maxIndex cih (cta - 1) (extendCalc hand nI maxDiff diffs quads).quads
                target best).best).best)
    ∧ (∀ (fuel hand : ℕ) (diffs : ℕ → ℕ)
        (minDiff maxDiff nI maxIndex cih cta quads : ℕ) (bs : List ℕ),
        nI + cta ≤ maxIndex → cta ≠ 0 → nI ≤ (1 <<< ilog2 (ilog2 hand)) * 2 →
        1 < cta → minDiff * 2 ≤ nI →
        (searchInnerMulti (fuel + 1) hand diffs minDiff maxDiff nI maxIndex cih cta quads
            bs).scores
          = (searchInnerMulti fuel hand diffs minDiff maxDiff (nI + 1) maxIndex cih cta
              quads
              (if (extendCalc hand nI maxDiff diffs quads).good = true then
                (searchInnerMulti fuel (hand ||| 1 <<< nI)
                  (extendCalc hand nI maxDiff diffs quads).diffs minDiff maxDiff (nI + 1)
                  maxIndex cih (cta - 1) (extendCalc hand nI maxDiff diffs quads).quads
                  bs).scores
              else bs)).scores) := by
  refine ⟨searchInner_ext_iff, searchInnerMulti_ext_iff, ?_, ?_, ?_⟩
  · intro fuel hand diffs minDiff maxDiff nI maxIndex cih cta quads target best
      h1 h2 h3 h4 h5 hc4
    exact ((searchInner_skip_unchanged fuel hand diffs minDiff maxDiff nI maxIndex cih cta
      quads target best h1 h2 h3 h4 h5).1 hc4).1
  · intro fuel hand diffs minDiff maxDiff nI maxIndex cih cta quads target best
      h1 h2 h3 h4 h5 hc4 hcont
    exact (searchInner_skip_unchanged fuel hand diffs minDiff maxDiff nI maxIndex cih cta
      quads target best h1 h2 h3 h4 h5).2 hc4 hcont
  · intro fuel hand diffs minDiff maxDiff nI maxIndex cih cta quads bs h1 h2 h3 h4 h5
    exact searchInnerMulti_skip_unchanged fuel hand diffs minDiff maxDiff nI maxIndex cih
      cta quads bs h1 h2 h3 h4 h5

theorem claim_C6_skip_exactly_when_witness : true = decide (1 * 2 ≤ 2) :=
  claim_C6_skip_exactly_when.2.1 5 0 (fun _ => 0) 1 1 0 4 0 4 0 []
    (Ev.ext 2 1 true true true) (by decide) 2 1 true true true rfl

set_option maxRecDepth 100000 in
set_option maxHeartbeats 4000000 in
/-- C7 (failing run): the `search` subcommand rejects an oversized deck
and an oversized hand before any engine call, but the `search-all`
subcommand performs no validation at all: invoked with deck size 200
(beyond the documented 128-card maximum) it runs the engine directly and
produces a result, instead of printing a message and returning. -/
theorem claim_C7_searchall_unvalidated :
    runSearch 1 129 none = none
    ∧ runSearch 2 1 none = none
    ∧ runSearch 1 4 none = some (search 4 1 none)
    ∧ runSearchAll 1 200 (some 1) = [(1, searchMulti 200 1)]
    ∧ searchMulti 200 1 = [0]
    ∧ 128 < 200 := by
  refine ⟨rfl, rfl, rfl, rfl, by decide, by norm_num⟩

set_option maxRecDepth 100000 in
set_option maxHeartbeats 4000000 in
/-- C9 (counterexample): with hand size 5, deck size 8 and target 0 the
claim cannot hold — the search returns the untouched placeholder hand
`{0,1,2,3,4}` (bitmask 31) with the sentinel score 8, that hand contains
one quad rather than none, and in fact no 5-card hand of an 8-card deck
is quad-free at all, so no minimal max-index over such hands exists. -/
theorem claim_C9_target0_counterexample :
    search 8 5 (some 0) = (31, 8)
    ∧ setQuads (handSet 31) = 1
    ∧ ((Finset.range 8).powersetCard 5).filter (fun s => setQuads s = 0) = ∅ := by
  have h3 : ((Finset.range 8).powersetCard 5).filter (fun s => setQuads s = 0)
      = ((Finset.range 8).powersetCard 5).filter
          (fun s => ((s.powersetCard 4).filter (fun q => xorSum q = 0)).card = 0) := by
    apply Finset.filter_congr
    intro s _
    rw [setQuads_eq_xorFilter]
  refine ⟨by decide, by decide, ?_⟩
  rw [h3]
  decide

set_option maxRecDepth 100000 in
set_option maxHeartbeats 4000000 in
/-- C9 (amended): with hand size 5, deck size 8 and target 0, no
quad-free 5-card hand exists, the search leaves the accumulator at its
placeholders (hand `(1 <<< 5) - 1`, score 8 = deck-size sentinel), and
the driver nevertheless reports a found hand (its test `best_score > 0`
accepts the sentinel) with max card `ilog2 31 = 4`. -/
theorem claim_C9_target0_result :
    search 8 5 (some 0) = ((1 <<< 5) - 1, 8)
    ∧ reportsFound (search 8 5 (some 0)) = true
    ∧ ilog2 (search 8 5 (some 0)).1 = 4 := by
  refine ⟨by decide, by decide, by decide⟩

/-- C10: in exact-target mode the best score never goes above its
initial value, so the search returns its placeholders unchanged exactly
when the final best score still equals the deck-size sentinel
`cards_in_deck`; consequently "not found" is signalled only by
`best_score = cards_in_deck`, while the driver's found test
`best_score > 0` accepts the sentinel whenever the deck is nonempty.
The placeholder hand bitmask `(1 <<< h) - 1` is the hand
`{0, ..., h-1}`. -/
theorem claim_C10_sentinel_not_found (d h t : ℕ) :
    ((search d h (some t)).2 = d ↔ search d h (some t) = ((1 <<< h) - 1, d))
    ∧ (0 < d → (search d h (some t)).2 = d → reportsFound (search d h (some t)) = true)
    ∧ (h ≤ 128 → handSet ((1 <<< h) - 1) = Finset.range h) := by
  refine ⟨⟨search_target_sentinel d h t, fun he => by rw [he]⟩, ?_, ?_⟩
  · intro hd hs
    unfold reportsFound
    rw [hs]
    simpa using hd
  · intro hh
    ext x
    rw [mem_handSet, Finset.mem_range, Nat.one_shiftLeft, Nat.testBit_two_pow_sub_one]
    constructor
    · rintro ⟨_, hb⟩
      simpa using hb
    · intro hx
      exact ⟨by omega, by simpa using hx⟩

theorem claim_C10_sentinel_not_found_witness :
    search 2 2 (some 1) = ((1 <<< 2) - 1, 2) :=
  (claim_C10_sentinel_not_found 2 2 1).1.mp (by decide)
